import Mathlib

/-!
Verification of the flake-reference / flake-resolution core of this
repository against its specification.

The repository provides two headers:
  * src/libexpr/flake/flakeref.hh  — the FlakeRef value model, its
    comparison operators, and the inline predicates isDirect and isDirty;
  * src/libexpr/primops/flake.hh   — FlakeRegistry, LockFile, Flake,
    NonFlake, Dependencies, and the declarations of getFlake,
    resolveFlake and updateLockFile.

C++ strings are embedded as `List Char`; `std::optional` as `Option`;
`std::variant` as an inductive type; machine-word fields (revCount) as
`Nat`; fallible operations as `Except`.  Functions whose bodies appear in
the headers are translated from that source; functions that are only
declared there are modelled from the specification and carry a doc
comment starting with `Modelled from the spec:`.
-/

/-- C++ `std::string`, embedded as its character list. -/
abbrev Str := List Char

/-- Build a `Str` from a Lean string literal (concrete test inputs only). -/
def str (s : String) : Str := s.data

/-- Lexicographic order on C++ strings (`std::string::operator<`),
character by character by character code. -/
def strLtB : Str → Str → Bool
  | [], [] => false
  | [], _ :: _ => true
  | _ :: _, [] => false
  | a :: as, b :: bs => if a < b then true else if a = b then strLtB as bs else false

/-- Hash algorithms that can tag a `rev`.  `hash.hh` is not part of this
repository snapshot; the spec only needs that each algorithm has a fixed
hash length (SHA-1 for git revisions, SHA-256 for tarball SRI hashes). -/
inductive HashType
  | sha1
  | sha256
deriving DecidableEq, Repr

/-- Number of hex digits in a textual hash of the given algorithm. -/
def HashType.hexLen : HashType → Nat
  | .sha1 => 40
  | .sha256 => 64

/-- Numeric rank of the algorithm tag, used only for ordering hashes. -/
def HashType.idx : HashType → Nat
  | .sha1 => 0
  | .sha256 => 1

/-- A content/commit hash: an algorithm tag plus its hex digits.  The
invariant (spec §3) that the digit string has the algorithm's fixed
length is tracked separately by `Hash.wf`. -/
structure Hash where
  type : HashType
  hex : Str
deriving DecidableEq, Repr

/-- The all-zero "empty" hash of an algorithm — the C++ `Hash(type)`
default constructor, used by `isDirty` as the dirty-working-tree
sentinel. -/
def Hash.emptyOf (t : HashType) : Hash :=
  ⟨t, List.replicate t.hexLen '0'⟩

/-- Ordering on hashes (algorithm rank, then digits); `hash.hh` is not in
this snapshot, so the order is the natural lexicographic one.  The C1
result below does not depend on this choice. -/
def hashLt (a b : Hash) : Bool :=
  Nat.blt a.type.idx b.type.idx ||
    (a.type.idx == b.type.idx && strLtB a.hex b.hex)

/-- `std::optional` ordering: an empty optional sorts before every
engaged one; two engaged optionals compare by value. -/
def optLt (lt : α → α → Bool) : Option α → Option α → Bool
  | none, none => false
  | none, some _ => true
  | some _, none => false
  | some a, some b => lt a b

/-- The four-way location variant of flakeref.hh:
`std::variant<IsAlias, IsGitHub, IsGit, IsPath>`. -/
inductive FlakeRefData
  | isAlias (name : Str)
  | isGitHub (owner repo : Str)
  | isGit (uri : Str)
  | isPath (path : Str)
deriving DecidableEq, Repr

/-- Position of the alternative inside the `std::variant` (its `index()`),
which is the major key of the variant's ordering. -/
def FlakeRefData.idx : FlakeRefData → Nat
  | .isAlias _ => 0
  | .isGitHub _ _ => 1
  | .isGit _ => 2
  | .isPath _ => 3

/-- Payload ordering of each alternative, from the inline `operator<` of
IsAlias / IsGitHub / IsGit / IsPath (flakeref.hh:112, 118-120, 130, 137). -/
def FlakeRefData.payloadLt : FlakeRefData → FlakeRefData → Bool
  | .isAlias a, .isAlias b => strLtB a b
  | .isGitHub o1 r1, .isGitHub o2 r2 =>
    strLtB o1 o2 || (decide (o1 = o2) && strLtB r1 r2)
  | .isGit u1, .isGit u2 => strLtB u1 u2
  | .isPath p1, .isPath p2 => strLtB p1 p2
  | _, _ => false

/-- `std::variant` ordering: alternative index first, then payload. -/
def FlakeRefData.lt (a b : FlakeRefData) : Bool :=
  Nat.blt a.idx b.idx || (a.idx == b.idx && FlakeRefData.payloadLt a b)

/-- A flake reference (flakeref.hh:107-191): the location variant plus
optional `ref` (branch/tag), optional `rev` (pinned hash) and `subdir`. -/
structure FlakeRef where
  data : FlakeRefData
  ref : Option Str
  rev : Option Hash
  subdir : Str
deriving DecidableEq, Repr

/-- `FlakeRef::operator<` (flakeref.hh:149-153).  The source compares
`std::make_tuple(data, ref, rev, subdir)` with
`std::make_tuple(flakeRef.data, flakeRef.ref, flakeRef.rev, subdir)`:
the fourth component of the *right* tuple is again this object's own
`subdir`, not `flakeRef.subdir`, so the final comparison is
`subdir < subdir`.  The embedding reproduces that faithfully. -/
def FlakeRef.lt (a b : FlakeRef) : Bool :=
  FlakeRefData.lt a.data b.data ||
    (decide (a.data = b.data) &&
      (optLt strLtB a.ref b.ref ||
        (decide (a.ref = b.ref) &&
          (optLt hashLt a.rev b.rev ||
            (decide (a.rev = b.rev) && strLtB a.subdir a.subdir)))))

/-- `FlakeRef::operator==` (flakeref.hh:155-159): componentwise equality
of the tuple (data, ref, rev, subdir). -/
def FlakeRef.beq (a b : FlakeRef) : Bool :=
  decide (a.data = b.data) && decide (a.ref = b.ref) &&
    decide (a.rev = b.rev) && decide (a.subdir = b.subdir)

/-- `FlakeRef::isDirect` (flakeref.hh:169-172): true unless the variant
is `IsAlias`. -/
def FlakeRef.isDirect (r : FlakeRef) : Bool :=
  match r.data with
  | .isAlias _ => false
  | _ => true

/-- `FlakeRef::isDirty` (flakeref.hh:180-184):
`std::get_if<IsPath>(&data) && rev == Hash(rev->type)`.
`&&` short-circuits, so for a non-path variant the right-hand side is
never evaluated and the result is `false`.  For a path variant the
right-hand side always runs, and it constructs `Hash(rev->type)`:
when `rev` is disengaged, `rev->type` dereferences an empty
`std::optional`, which is undefined behaviour — embedded as `none`.
When `rev` is engaged, `optional == value` compares the contained hash
with the empty hash of its own algorithm. -/
def FlakeRef.isDirtyChecked (r : FlakeRef) : Option Bool :=
  match r.data with
  | .isPath _ =>
    match r.rev with
    | none => none
    | some h => some (decide (h = Hash.emptyOf h.type))
  | _ => some false

/-- Modelled from the spec: `baseRef` (flakeref.hh:178 is only a
declaration) — "the same reference with ref/rev stripped — the most
general reference that still denotes the same repository/location". -/
def FlakeRef.baseRef (r : FlakeRef) : FlakeRef :=
  { r with ref := none, rev := none }

/-- Modelled from the spec: `isImmutable` (flakeref.hh:176 is only a
declaration) — "true iff the reference pins an exact commit/content hash
(for path references, additionally requires the hash to be non-empty,
distinguishing a pinned snapshot from a live working tree)". -/
def FlakeRef.isImmutable (r : FlakeRef) : Bool :=
  match r.rev with
  | none => false
  | some h =>
    match r.data with
    | .isPath _ => decide (h ≠ Hash.emptyOf h.type)
    | _ => true

/-- Modelled from the spec: `contains` (flakeref.hh:190 is only a
declaration) — "a reference with no ref/rev contains any reference that
shares its variant-payload, regardless of that other's ref/rev; a
reference with a ref but no rev contains another sharing payload and ref
regardless of rev; a reference with both pinned contains only an exact
match".  Structurally: the payloads must agree, every `ref`/`rev` that
`this` pins must be matched exactly by `other`, and the subdirs must
agree (so that the fully pinned case is exactly equality). -/
def FlakeRef.contains (a other : FlakeRef) : Bool :=
  decide (a.data = other.data) &&
    (match a.ref with
     | none => true
     | some r => decide (other.ref = some r)) &&
    (match a.rev with
     | none => true
     | some v => decide (other.rev = some v)) &&
    decide (a.subdir = other.subdir)

/- ### Concrete references used by the comparison and dirtiness results -/

/-- An alias reference with empty subdir. -/
def refSubdirA : FlakeRef := ⟨.isAlias (str "nixpkgs"), none, none, []⟩

/-- The same alias reference, but with a non-empty subdir. -/
def refSubdirB : FlakeRef := ⟨.isAlias (str "nixpkgs"), none, none, str "lib"⟩

/-- A path reference whose `rev` is absent. -/
def refPathNoRev : FlakeRef := ⟨.isPath (str "/path/to/repo"), none, none, []⟩

/-- A path reference pinned to a branch and a concrete revision. -/
def refPathPinned : FlakeRef :=
  ⟨.isPath (str "/path/to/my/repo"), some (str "develop"),
    some ⟨.sha1, str "e72daba8250068216d79d2aeef40d4d95aff6666"⟩, []⟩

/-- C1: `FlakeRef::operator<` is claimed to be a total order,
lexicographic over the same tuple (data, ref, rev, subdir) as
`operator==`, so that any two unequal references are ordered one way or
the other.  The code compares the fourth component against this
object's own `subdir` (flakeref.hh:152 repeats `subdir` instead of
`flakeRef.subdir`), so two references that differ only in `subdir` are
unequal yet neither is less than the other — the claimed trichotomy
fails at this concrete pair. -/
theorem flakeRef_lt_ignores_other_subdir :
    FlakeRef.lt refSubdirA refSubdirB = false ∧
    FlakeRef.lt refSubdirB refSubdirA = false ∧
    FlakeRef.beq refSubdirA refSubdirB = false := by decide

/-- C2: `isDirty` is claimed to return `false` whenever `rev` is absent.
For a path reference with absent `rev`, the code evaluates
`rev == Hash(rev->type)` (flakeref.hh:183), and `rev->type` dereferences
the disengaged optional — undefined behaviour, not `false`.  The guarded
embedding records the undefined branch as `none`. -/
theorem isDirty_undefined_when_rev_absent :
    FlakeRef.isDirtyChecked refPathNoRev ≠ some false ∧
    FlakeRef.isDirtyChecked refPathNoRev = none := by decide

/-- C3: evaluating `isDirty` is claimed to be total — in particular, on
the result of `baseRef` applied to a path reference, the access to
`rev`'s algorithm is claimed to be guarded by a presence check.  The
only guard in the code is the variant test `std::get_if<IsPath>`
(flakeref.hh:182); `baseRef` of a path reference yields a path variant
with `rev` absent, and on it `rev->type` dereferences a disengaged
optional — the undefined branch is reachable. -/
theorem isDirty_of_baseRef_undefined :
    FlakeRef.isDirtyChecked (FlakeRef.baseRef refPathPinned) = none := by decide

/- ### The specificity order `contains` (C5) -/

/-- Unfolding of `contains` into its four conjuncts. -/
theorem FlakeRef.contains_iff (a b : FlakeRef) :
    a.contains b = true ↔
      (a.data = b.data ∧ (∀ r, a.ref = some r → b.ref = some r) ∧
        (∀ v, a.rev = some v → b.rev = some v) ∧ a.subdir = b.subdir) := by
  unfold FlakeRef.contains
  cases h1 : a.ref <;> cases h2 : a.rev <;>
    simp [h1, h2, Bool.and_eq_true, decide_eq_true_eq, and_assoc]

/-- A git reference pinned to a revision but carrying no branch name. -/
def gitPinnedNoRef : FlakeRef :=
  ⟨.isGit (str "git+https://example.org/repo.git"), none,
    some ⟨.sha1, str "2efca4bc9da70fb001b26c3dc858c6397d3c4817"⟩, []⟩

/-- The same git reference with a branch name added. -/
def gitPinnedWithRef : FlakeRef :=
  { gitPinnedNoRef with ref := some (str "flake") }

/-- C5 counterexample: an immutable reference that pins a `rev` but has
no `ref` contains a distinct reference (same uri, same rev, but with a
branch name), so "any reference satisfying isImmutable contains no
reference other than itself" fails as stated. -/
theorem contains_immutable_not_minimal :
    FlakeRef.isImmutable gitPinnedNoRef = true ∧
    FlakeRef.contains gitPinnedNoRef gitPinnedWithRef = true ∧
    gitPinnedNoRef ≠ gitPinnedWithRef := by decide

/-- C5 (amended): `contains` is reflexive and transitive, and an
immutable reference contains only references agreeing with it on data,
rev and subdir — hence only itself whenever it also carries a `ref`; an
immutable reference without a `ref` may additionally contain references
differing from it only in `ref`. -/
theorem contains_specificity_partial_order :
    (∀ a : FlakeRef, a.contains a = true) ∧
    (∀ a b c : FlakeRef,
      a.contains b = true → b.contains c = true → a.contains c = true) ∧
    (∀ a b : FlakeRef, a.isImmutable = true → a.contains b = true →
      (b.data = a.data ∧ b.rev = a.rev ∧ b.subdir = a.subdir ∧
        (a.ref.isSome = true → b = a))) := by
  refine ⟨?_, ?_, ?_⟩
  · intro a
    rw [FlakeRef.contains_iff]
    exact ⟨rfl, fun _ h => h, fun _ h => h, rfl⟩
  · intro a b c hab hbc
    rw [FlakeRef.contains_iff] at hab hbc ⊢
    obtain ⟨h1, h2, h3, h4⟩ := hab
    obtain ⟨g1, g2, g3, g4⟩ := hbc
    exact ⟨h1.trans g1, fun r h => g2 r (h2 r h),
      fun v h => g3 v (h3 v h), h4.trans g4⟩
  · intro a b himm hab
    rw [FlakeRef.contains_iff] at hab
    obtain ⟨h1, h2, h3, h4⟩ := hab
    cases hrev : a.rev with
    | none => rw [FlakeRef.isImmutable, hrev] at himm; exact absurd himm (by simp)
    | some v =>
      have hbrev : b.rev = some v := h3 v hrev
      refine ⟨h1.symm, by rw [hbrev], h4.symm, ?_⟩
      intro href
      obtain ⟨r, hr⟩ := Option.isSome_iff_exists.mp href
      have hbref : b.ref = some r := h2 r hr
      cases a with
      | mk ad ar av as =>
        cases b with
        | mk bd br bv bs => simp_all

/-- A GitHub reference with neither ref nor rev. -/
def ghBase : FlakeRef := ⟨.isGitHub (str "edolstra") (str "dwarffs"), none, none, []⟩

/-- The GitHub reference with a branch name. -/
def ghWithRef : FlakeRef := { ghBase with ref := some (str "unstable") }

/-- The GitHub reference with branch name and pinned revision. -/
def ghWithRefRev : FlakeRef :=
  { ghWithRef with rev := some ⟨.sha1, str "41c0c1bf292ea3ac3858ff393b49ca1123dbd553"⟩ }

/-- Witness for the specificity order: transitivity applied along the
chain base ⊒ base+ref ⊒ base+ref+rev, and minimality applied to the
fully pinned reference. -/
theorem contains_specificity_partial_order_witness :
    FlakeRef.contains ghBase ghWithRefRev = true ∧
    (ghWithRefRev.data = ghWithRefRev.data ∧ ghWithRefRev.rev = ghWithRefRev.rev ∧
      ghWithRefRev.subdir = ghWithRefRev.subdir ∧
      (ghWithRefRev.ref.isSome = true → ghWithRefRev = ghWithRefRev)) :=
  ⟨contains_specificity_partial_order.2.1 ghBase ghWithRef ghWithRefRev
      (by decide) (by decide),
   contains_specificity_partial_order.2.2 ghWithRefRev ghWithRefRev
      (by decide) (by decide)⟩

/- ### String machinery for the textual grammar (§4.1) -/

/-- Split a string at every occurrence of `c` (the pieces do not contain
`c`; n occurrences yield n+1 pieces). -/
def splitOnChar (c : Char) : Str → List Str
  | [] => [[]]
  | x :: xs =>
    if x = c then [] :: splitOnChar c xs
    else
      match splitOnChar c xs with
      | [] => [[x]]
      | h :: t => (x :: h) :: t

/-- Break a string at the first occurrence of `c`: the part before it and,
when `c` occurs at all, the part after it. -/
def breakAt (c : Char) : Str → Str × Option Str
  | [] => ([], none)
  | x :: xs =>
    if x = c then ([], some xs)
    else
      let p := breakAt c xs
      (x :: p.1, p.2)

/-- `p` is a prefix of `s`. -/
def startsWith : Str → Str → Bool
  | [], _ => true
  | _ :: _, [] => false
  | p :: ps, s :: ss => decide (p = s) && startsWith ps ss

theorem splitOnChar_eq_single {c : Char} {s : Str} (h : ∀ x ∈ s, x ≠ c) :
    splitOnChar c s = [s] := by
  induction s with
  | nil => rfl
  | cons x xs ih =>
    have hx : x ≠ c := h x (by simp)
    have ih' := ih (fun y hy => h y (by simp [hy]))
    simp [splitOnChar, hx, ih']

theorem splitOnChar_append {c : Char} {xs ys : Str} (h : ∀ x ∈ xs, x ≠ c) :
    splitOnChar c (xs ++ c :: ys) = xs :: splitOnChar c ys := by
  induction xs with
  | nil => simp [splitOnChar]
  | cons x t ih =>
    have hx : x ≠ c := h x (by simp)
    have ih' := ih (fun y hy => h y (by simp [hy]))
    simp [splitOnChar, hx, ih']

theorem breakAt_eq_none {c : Char} {s : Str} (h : ∀ x ∈ s, x ≠ c) :
    breakAt c s = (s, none) := by
  induction s with
  | nil => rfl
  | cons x xs ih =>
    have hx : x ≠ c := h x (by simp)
    have ih' := ih (fun y hy => h y (by simp [hy]))
    simp [breakAt, hx, ih']

theorem breakAt_append {c : Char} {xs ys : Str} (h : ∀ x ∈ xs, x ≠ c) :
    breakAt c (xs ++ c :: ys) = (xs, some ys) := by
  induction xs with
  | nil => simp [breakAt]
  | cons x t ih =>
    have hx : x ≠ c := h x (by simp)
    have ih' := ih (fun y hy => h y (by simp [hy]))
    simp [breakAt, hx, ih']

theorem startsWith_exists {p s : Str} (h : startsWith p s = true) :
    ∃ t, s = p ++ t := by
  induction p generalizing s with
  | nil => exact ⟨s, rfl⟩
  | cons x xs ih =>
    cases s with
    | nil => simp [startsWith] at h
    | cons y ys =>
      rw [startsWith, Bool.and_eq_true, decide_eq_true_eq] at h
      obtain ⟨t, ht⟩ := ih h.2
      exact ⟨t, by rw [ht, h.1]; rfl⟩

theorem startsWith_eq_false_of_forbidden {p s : Str} {c : Char}
    (hc : c ∈ p) (h : ∀ x ∈ s, x ≠ c) : startsWith p s = false := by
  cases hsw : startsWith p s with
  | false => rfl
  | true =>
    obtain ⟨t, ht⟩ := startsWith_exists hsw
    exact absurd rfl (h c (by rw [ht]; exact List.mem_append_left t hc))

theorem all_imp_ne {P : Char → Bool} {s : Str} (h : s.all P = true) {c : Char}
    (hc : P c = false) : ∀ x ∈ s, x ≠ c := by
  intro x hx
  have := List.all_eq_true.mp h x hx
  intro hxc
  rw [hxc, hc] at this
  exact Bool.false_ne_true this

/- ### Lexical classes of the reference grammar -/

/-- Hex digit (either case), the alphabet of textual hashes. -/
def isHexChar (c : Char) : Bool :=
  c.isDigit || ('a' ≤ c && c ≤ 'f') || ('A' ≤ c && c ≤ 'F')

/-- Characters allowed after the first one in a bare flake id. -/
def isIdChar (c : Char) : Bool :=
  c.isAlphanum || c = '-' || c = '_'

/-- A bare flake identifier: a letter followed by id characters. -/
def isFlakeId : Str → Bool
  | [] => false
  | x :: xs => x.isAlpha && xs.all isIdChar

/-- Characters allowed in a GitHub owner or repository segment. -/
def isGitHubSegChar (c : Char) : Bool :=
  c.isAlphanum || c = '-' || c = '_' || c = '.'

/-- A GitHub owner/repository segment: nonempty, segment characters. -/
def isGitHubSeg (s : Str) : Bool :=
  !s.isEmpty && s.all isGitHubSegChar

/-- The lexical commit-hash pattern that disambiguates "rev" from "ref":
a hex string of SHA-1 width (spec §4.1, "hash = fixed-width hex string of
a known length for a known algorithm"). -/
def isRevHash (s : Str) : Bool :=
  s.length == 40 && s.all isHexChar

/-- Characters allowed in a branch/tag name. -/
def isRefNameChar (c : Char) : Bool :=
  c.isAlphanum || c = '-' || c = '_' || c = '.' || c = '+'

/-- A branch/tag name: nonempty, name characters, and lexically not a
commit hash (anything matching the hash pattern is classified as a rev). -/
def isRefName (s : Str) : Bool :=
  !s.isEmpty && s.all isRefNameChar && !isRevHash s

/-- A 64-digit hex string: the payload of a `sha256-` SRI hash. -/
def isHex64 (s : Str) : Bool :=
  s.length == 64 && s.all isHexChar

/-- Characters allowed in a bare filesystem path. -/
def isPathChar (c : Char) : Bool :=
  c.isAlphanum || c = '-' || c = '_' || c = '.' || c = '/' || c = '~' || c = '+'

/-- Characters allowed in a URL (before any `?attr` suffix). -/
def isUriChar (c : Char) : Bool :=
  c.isAlphanum || c = '-' || c = '_' || c = '.' || c = '/' || c = ':' ||
    c = '~' || c = '+' || c = '%' || c = '@'

/-- The URL schemes of grammar rule 2 (Git-protocol locations). -/
def gitSchemes : List Str :=
  [str "git+https://", str "git+ssh://", str "git://", str "file://"]

/-- The additional schemes of grammar rule 4 (plain tarball URLs). -/
def tarballSchemes : List Str :=
  [str "https://", str "http://"]

/-- Recognized archive extensions: a URL ending in one of these denotes a
flake distributed as a tarball (grammar rule 4). -/
def archiveExts : List Str :=
  [str ".zip", str ".tar", str ".tar.gz", str ".tar.xz", str ".tar.bz2"]

/-- `p` is a suffix of `s`. -/
def endsWith (p s : Str) : Bool :=
  startsWith p.reverse s.reverse

/-- Whether the URL ends in a recognized archive extension. -/
def hasArchiveExt (s : Str) : Bool :=
  archiveExts.any (fun e => endsWith e s)

/- ### Query-attribute parsing (`\?attr(&attr)*`) -/

/-- One `key=value` attribute. -/
def parseAttr (s : Str) : Option (Str × Str) :=
  match breakAt '=' s with
  | (k, some v) => some (k, v)
  | (_, none) => none

/-- Parse each `&`-separated piece as an attribute. -/
def parseAttrList : List Str → Option (List (Str × Str))
  | [] => some []
  | s :: rest =>
    match parseAttr s, parseAttrList rest with
    | some kv, some kvs => some (kv :: kvs)
    | _, _ => none

/-- The attribute list after `?`, split at `&`. -/
def parseAttrs (s : Str) : Option (List (Str × Str)) :=
  parseAttrList (splitOnChar '&' s)

/-- Fold `ref=`/`rev=` attributes into the optional ref and rev fields;
any other key, a duplicate key, a malformed ref name or a malformed rev
hash is a parse error.  A `rev` attribute is a SHA-1 commit hash. -/
def attrsToRefRev : List (Str × Str) → Option Str → Option Hash →
    Option (Option Str × Option Hash)
  | [], r, h => some (r, h)
  | (k, v) :: rest, r, h =>
    if k = str "ref" then
      match r, isRefName v with
      | none, true => attrsToRefRev rest (some v) h
      | _, _ => none
    else if k = str "rev" then
      match h, isRevHash v with
      | none, true => attrsToRefRev rest r (some ⟨.sha1, v⟩)
      | _, _ => none
    else none

/-- The tarball query: at most one attribute, `hash=sha256-<64 hex>`,
yielding the SRI content hash as the rev. -/
def attrsToTarballRev : List (Str × Str) → Option (Option Hash)
  | [] => some none
  | [(k, v)] =>
    if k = str "hash" && startsWith (str "sha256-") v then
      let hx := v.drop (str "sha256-").length
      if isHex64 hx then some (some ⟨.sha256, hx⟩) else none
    else none
  | _ => none

/- ### The reference parser (spec §4.1; the parsing constructor
`FlakeRef(const std::string &, bool)` of flakeref.hh:162 is only a
declaration in this snapshot, so the parser is modelled from the spec's
grammar) -/

/-- Grammar rule 1: `github:<owner>/<repo>(/<rev-or-ref>)?`.  The
optional trailing segment is a rev when it lexically matches the
commit-hash pattern, otherwise a ref.  (The spec's "default ref is
master" is applied by the fetcher, not stored by the parser: storing it
would contradict the spec's requirement that `to_string` is a faithful
inverse for every variant.) -/
def parseGitHubRest (rest : Str) : Option FlakeRef :=
  match splitOnChar '/' rest with
  | [o, r] =>
    if isGitHubSeg o && isGitHubSeg r then
      some ⟨.isGitHub o r, none, none, []⟩
    else none
  | [o, r, x] =>
    if isGitHubSeg o && isGitHubSeg r then
      if isRevHash x then some ⟨.isGitHub o r, none, some ⟨.sha1, x⟩, []⟩
      else if isRefName x then some ⟨.isGitHub o r, some x, none, []⟩
      else none
    else none
  | _ => none

/-- Grammar rule 2: a Git-protocol URL; `ref=`/`rev=` query parameters
are stripped from the URI into the corresponding fields. -/
def parseGitUrl (base : Str) (q : Option Str) : Option FlakeRef :=
  match (match q with | none => some [] | some s => parseAttrs s) with
  | none => none
  | some attrs =>
    match attrsToRefRev attrs none none with
    | none => none
    | some (r, h) => some ⟨.isGit base, r, h, []⟩

/-- Grammar rule 4: a tarball URL with an optional `?hash=<sri>` query. -/
def parseTarball (base : Str) (q : Option Str) : Option FlakeRef :=
  match q with
  | none => some ⟨.isGit base, none, none, []⟩
  | some s =>
    match parseAttrs s with
    | none => none
    | some attrs =>
      match attrsToTarballRev attrs with
      | none => none
      | some h => some ⟨.isGit base, none, h, []⟩

/-- Grammar rule 3: a bare filesystem path with an optional
`?ref=...&rev=...` query.  With no query at all, the rev is set to the
empty-hash dirty sentinel ("the working tree will be used"). -/
def parsePath (uri : Str) : Option FlakeRef :=
  let bq := breakAt '?' uri
  if bq.1.isEmpty || !bq.1.all isPathChar then none
  else
    match bq.2 with
    | none => some ⟨.isPath bq.1, none, some (Hash.emptyOf .sha1), []⟩
    | some s =>
      match parseAttrs s with
      | none => none
      | some attrs =>
        match attrsToRefRev attrs none none with
        | none => none
        | some (r, h) => some ⟨.isPath bq.1, r, h, []⟩

/-- Grammar rule 5: `<id>(/<rev-or-ref>(/<rev>)?)?` — a registry alias
with an optional override ref and/or rev. -/
def parseAlias (uri : Str) : Option FlakeRef :=
  match splitOnChar '/' uri with
  | [i] => if isFlakeId i then some ⟨.isAlias i, none, none, []⟩ else none
  | [i, x] =>
    if isFlakeId i then
      if isRevHash x then some ⟨.isAlias i, none, some ⟨.sha1, x⟩, []⟩
      else if isRefName x then some ⟨.isAlias i, some x, none, []⟩
      else none
    else none
  | [i, x, y] =>
    if isFlakeId i && isRefName x && isRevHash y then
      some ⟨.isAlias i, some x, some ⟨.sha1, y⟩, []⟩
    else none
  | _ => none

/-- Query-splitting and archive dispatch shared by grammar rules 2 and 4:
strip the `?attr` suffix, validate the URL alphabet, then parse as a
tarball when the URL has an archive extension, as a Git URL otherwise
(the latter only for the Git-protocol schemes, `gitOk`). -/
def parseUrl (gitOk : Bool) (uri : Str) : Option FlakeRef :=
  let bq := breakAt '?' uri
  if !bq.1.all isUriChar then none
  else if hasArchiveExt bq.1 then parseTarball bq.1 bq.2
  else if gitOk then parseGitUrl bq.1 bq.2
  else none

/-- Modelled from the spec: the parsing constructor
`FlakeRef(const std::string & uri, bool allowRelative)` (flakeref.hh:162
is only a declaration), following the grammar of §4.1 in its priority
order of scheme detection.  `none` is the `BadFlakeRef` outcome.  A
Git-scheme URL ending in an archive extension is treated as a tarball
(rule 2's parenthetical); a plain `http(s)` URL is a valid reference
only when it is a tarball. -/
def parseCore (uri : Str) (allowRelative : Bool) : Option FlakeRef :=
  if startsWith (str "github:") uri then
    parseGitHubRest (uri.drop (str "github:").length)
  else if gitSchemes.any (fun s => startsWith s uri) then
    parseUrl true uri
  else if startsWith (str "/") uri ||
      (allowRelative && (startsWith (str "./") uri || startsWith (str "../") uri)) then
    parsePath uri
  else if tarballSchemes.any (fun s => startsWith s uri) then
    parseUrl false uri
  else
    parseAlias uri

/-- The error taxonomy (flakeref.hh:195-196 and spec §7):
`MakeError(BadFlakeRef, Error)` and `MakeError(MissingFlake, BadFlakeRef)`
— so a `MissingFlake` *is* a `BadFlakeRef`; the cycle error is the
dedicated resolution-path error of §4.4; fetch/evaluate failures stand
for opaque external-collaborator errors; `fuelExhausted` is an artifact
of the fuelled embedding of the recursive resolver, reachable only when
the fuel bound is too small. -/
inductive FlakeError
  | badFlakeRef
  | missingFlake
  | cycleDetected (id : Str)
  | fetchFailure
  | evalFailure
  | fuelExhausted
deriving DecidableEq, Repr

/-- Whether an error is a `BadFlakeRef` — including `MissingFlake`,
which derives from it (flakeref.hh:196). -/
def FlakeError.isBadFlakeRef : FlakeError → Bool
  | .badFlakeRef => true
  | .missingFlake => true
  | _ => false

/-- Modelled from the spec: the parsing constructor as the fallible
operation `parse(text, allowRelative) -> FlakeRef`, failing with
`BadFlakeRef` on malformed input (§4.1). -/
def FlakeRef.parse (uri : Str) (allowRelative : Bool) : Except FlakeError FlakeRef :=
  match parseCore uri allowRelative with
  | some r => .ok r
  | none => .error .badFlakeRef

/-- Modelled from the spec: the non-throwing entry point
`parseFlakeRef` (flakeref.hh:198-199 is only a declaration) — it invokes
the parsing constructor and converts the `BadFlakeRef` failure into an
empty optional. -/
def parseFlakeRef (uri : Str) (allowRelative : Bool) : Option FlakeRef :=
  match FlakeRef.parse uri allowRelative with
  | .ok r => some r
  | .error _ => none

/-- The canonical `?ref=...&rev=...` query of a git or path reference. -/
def refRevQuery : Option Str → Option Hash → Str
  | none, none => []
  | some r, none => str "?ref=" ++ r
  | none, some h => str "?rev=" ++ h.hex
  | some r, some h => str "?ref=" ++ r ++ str "&rev=" ++ h.hex

/-- Modelled from the spec: `FlakeRef::to_string` (flakeref.hh:165 is
only a declaration) — renders each variant in the grammar of §4.1 so
that parsing is a faithful inverse: an alias with its override segments;
a GitHub reference with its single trailing rev-or-ref segment; a git
URL with its `ref`/`rev` query; a tarball URL with its SRI `hash` query;
a path with its query, or bare when it carries the dirty sentinel. -/
def FlakeRef.to_string (r : FlakeRef) : Str :=
  match r.data with
  | .isAlias i =>
    i ++ (match r.ref with | none => [] | some rf => '/' :: rf)
      ++ (match r.rev with | none => [] | some h => '/' :: h.hex)
  | .isGitHub o rp =>
    str "github:" ++ o ++ '/' :: rp ++
      (match r.rev with
       | some h => '/' :: h.hex
       | none => match r.ref with | some rf => '/' :: rf | none => [])
  | .isGit uri =>
    if hasArchiveExt uri then
      uri ++ (match r.rev with | none => [] | some h => str "?hash=sha256-" ++ h.hex)
    else uri ++ refRevQuery r.ref r.rev
  | .isPath p =>
    if r.ref = none ∧ r.rev = some (Hash.emptyOf .sha1) then p
    else p ++ refRevQuery r.ref r.rev

/-- Well-formedness of a hash value (spec §3 invariant: "rev, when
present, is a fixed-length hash of a declared algorithm"). -/
def Hash.wf (h : Hash) : Bool :=
  h.hex.length == h.type.hexLen && h.hex.all isHexChar

/-- An optional branch name is lexically valid. -/
def validRefOpt : Option Str → Bool
  | none => true
  | some rf => isRefName rf

/-- An optional rev is a well-formed hash of the given algorithm. -/
def validRevOpt (t : HashType) : Option Hash → Bool
  | none => true
  | some h => decide (h.type = t) && Hash.wf h

/-- A constructed `FlakeRef` is *valid* when its fields satisfy the
lexical invariants of the grammar (§4.1) and the value is expressible in
the textual syntax at all: identifiers, segments, ref names and paths
drawn from their alphabets; revs well-formed hashes of the algorithm the
variant carries (SHA-1 for git commits, SHA-256 for tarball SRI hashes);
a GitHub reference carries at most one of ref/rev (its grammar has a
single trailing segment); a tarball URL carries no branch; a path
reference carries at least one of ref/rev (parsing a bare path always
pins the dirty sentinel); and `subdir` is empty ("today only top-level
flakes are supported" — the grammar has no subdir syntax). -/
def FlakeRef.valid (r : FlakeRef) : Bool :=
  r.subdir.isEmpty &&
  (match r.data with
   | .isAlias i =>
     isFlakeId i && validRefOpt r.ref && validRevOpt .sha1 r.rev
   | .isGitHub o rp =>
     isGitHubSeg o && isGitHubSeg rp && validRefOpt r.ref &&
       validRevOpt .sha1 r.rev && !(r.ref.isSome && r.rev.isSome)
   | .isGit uri =>
     !uri.isEmpty && uri.all isUriChar &&
     (if hasArchiveExt uri then
        (gitSchemes ++ tarballSchemes).any (fun s => startsWith s uri) &&
          decide (r.ref = none) && validRevOpt .sha256 r.rev
      else
        gitSchemes.any (fun s => startsWith s uri) &&
          validRefOpt r.ref && validRevOpt .sha1 r.rev)
   | .isPath p =>
     !p.isEmpty && p.all isPathChar && startsWith (str "/") p &&
       validRefOpt r.ref && validRevOpt .sha1 r.rev &&
       !(!r.ref.isSome && !r.rev.isSome))

/-- Scenario 1 of §8: parsing `github:edolstra/dwarffs/unstable`. -/
theorem scenario_github_ref :
    parseCore (str "github:edolstra/dwarffs/unstable") false =
      some ⟨.isGitHub (str "edolstra") (str "dwarffs"), some (str "unstable"), none, []⟩ := by
  decide

/-- Scenario 2 of §8: a path pinned by an explicit rev is immutable and
not dirty. -/
theorem scenario_path_pinned :
    parseCore (str "/path/to/repo?rev=e72daba8250068216d79d2aeef40d4d95aff6666") false =
      some ⟨.isPath (str "/path/to/repo"), none,
        some ⟨.sha1, str "e72daba8250068216d79d2aeef40d4d95aff6666"⟩, []⟩ ∧
    FlakeRef.isImmutable ⟨.isPath (str "/path/to/repo"), none,
        some ⟨.sha1, str "e72daba8250068216d79d2aeef40d4d95aff6666"⟩, []⟩ = true ∧
    FlakeRef.isDirtyChecked ⟨.isPath (str "/path/to/repo"), none,
        some ⟨.sha1, str "e72daba8250068216d79d2aeef40d4d95aff6666"⟩, []⟩ = some false := by
  decide

/-- Scenario 3 of §8: a bare path parses to the dirty sentinel. -/
theorem scenario_path_dirty :
    parseCore (str "/path/to/repo") false =
      some ⟨.isPath (str "/path/to/repo"), none, some (Hash.emptyOf .sha1), []⟩ ∧
    FlakeRef.isDirtyChecked ⟨.isPath (str "/path/to/repo"), none,
        some (Hash.emptyOf .sha1), []⟩ = some true ∧
    FlakeRef.isImmutable ⟨.isPath (str "/path/to/repo"), none,
        some (Hash.emptyOf .sha1), []⟩ = false := by
  decide

/- ### Round-trip: helper facts about the lexical classes -/

theorem isRefName_all {s : Str} (h : isRefName s = true) :
    s.all isRefNameChar = true := by
  rw [isRefName, Bool.and_eq_true, Bool.and_eq_true] at h
  exact h.1.2

theorem isRefName_not_rev {s : Str} (h : isRefName s = true) :
    isRevHash s = false := by
  rw [isRefName, Bool.and_eq_true] at h
  cases hr : isRevHash s with
  | false => rfl
  | true => rw [hr] at h; exact absurd h.2 (by decide)

theorem isGitHubSeg_all {s : Str} (h : isGitHubSeg s = true) :
    s.all isGitHubSegChar = true := by
  rw [isGitHubSeg, Bool.and_eq_true] at h
  exact h.2

theorem isRevHash_all {s : Str} (h : isRevHash s = true) :
    s.all isHexChar = true := by
  rw [isRevHash, Bool.and_eq_true] at h
  exact h.2

theorem isHex64_all {s : Str} (h : isHex64 s = true) :
    s.all isHexChar = true := by
  rw [isHex64, Bool.and_eq_true] at h
  exact h.2

theorem hash_isRevHash {h : Hash} (hwf : Hash.wf h = true) (ht : h.type = .sha1) :
    isRevHash h.hex = true := by
  rw [Hash.wf, Bool.and_eq_true, ht] at hwf
  rw [isRevHash, Bool.and_eq_true]
  exact ⟨hwf.1, hwf.2⟩

theorem hash_isHex64 {h : Hash} (hwf : Hash.wf h = true) (ht : h.type = .sha256) :
    isHex64 h.hex = true := by
  rw [Hash.wf, Bool.and_eq_true, ht] at hwf
  rw [isHex64, Bool.and_eq_true]
  exact ⟨hwf.1, hwf.2⟩

theorem flakeId_ne {i : Str} (h : isFlakeId i = true) {c : Char}
    (h1 : c.isAlpha = false) (h2 : isIdChar c = false) : ∀ x ∈ i, x ≠ c := by
  cases i with
  | nil => rw [isFlakeId] at h; exact absurd h (by decide)
  | cons x xs =>
    rw [isFlakeId, Bool.and_eq_true] at h
    intro y hy
    rcases List.mem_cons.mp hy with rfl | hy'
    · intro hyc; rw [hyc, h1] at h; exact Bool.false_ne_true h.1
    · exact all_imp_ne h.2 h2 y hy'

theorem alpha_ne {x : Char} (h : x.isAlpha = true) {c : Char}
    (hc : c.isAlpha = false) : c ≠ x := by
  intro e; rw [e, h] at hc; exact absurd hc (by decide)

theorem startsWith_cons_head_ne {c : Char} {p : Str} {x : Char} {xs : Str}
    (h : c ≠ x) : startsWith (c :: p) (x :: xs) = false := by
  simp [startsWith, h]

/-- None of the URL schemes can prefix a string free of `':'`. -/
theorem gitSchemes_any_false {s : Str} (h : ∀ x ∈ s, x ≠ ':') :
    (gitSchemes.any fun p => startsWith p s) = false := by
  simp only [gitSchemes, List.any_cons, List.any_nil, Bool.or_eq_false_iff]
  refine ⟨?_, ?_, ?_, ?_, trivial⟩ <;>
    exact startsWith_eq_false_of_forbidden (by decide) h

theorem tarballSchemes_any_false {s : Str} (h : ∀ x ∈ s, x ≠ ':') :
    (tarballSchemes.any fun p => startsWith p s) = false := by
  simp only [tarballSchemes, List.any_cons, List.any_nil, Bool.or_eq_false_iff]
  refine ⟨?_, ?_, trivial⟩ <;>
    exact startsWith_eq_false_of_forbidden (by decide) h

theorem startsWith_github_false {s : Str} (h : ∀ x ∈ s, x ≠ ':') :
    startsWith (str "github:") s = false :=
  startsWith_eq_false_of_forbidden (by decide) h

/-- On a colon-free string whose head is a letter, the parser reaches the
alias rule. -/
theorem parseCore_to_alias {u : Str} (hcolon : ∀ x ∈ u, x ≠ ':')
    (hslash : startsWith (str "/") u = false) :
    parseCore u false = parseAlias u := by
  rw [parseCore, startsWith_github_false hcolon, gitSchemes_any_false hcolon,
    tarballSchemes_any_false hcolon, hslash]
  simp

/-- Round-trip of an alias reference. -/
theorem roundTrip_alias {i : Str} {ref : Option Str} {rev : Option Hash}
    (hi : isFlakeId i = true) (href : validRefOpt ref = true)
    (hrev : validRevOpt .sha1 rev = true) :
    parseCore (FlakeRef.to_string ⟨.isAlias i, ref, rev, []⟩) false =
      some ⟨.isAlias i, ref, rev, []⟩ := by
  have hiColon : ∀ x ∈ i, x ≠ ':' := flakeId_ne hi (by decide) (by decide)
  have hiSlash : ∀ x ∈ i, x ≠ '/' := flakeId_ne hi (by decide) (by decide)
  have hslash1 : str "/" = ['/'] := rfl
  obtain ⟨x, xs, rfl⟩ : ∃ x xs, i = x :: xs := by
    cases i with
    | nil => rw [isFlakeId] at hi; exact absurd hi (by decide)
    | cons x xs => exact ⟨x, xs, rfl⟩
  have hxAlpha : x.isAlpha = true := by
    rw [isFlakeId, Bool.and_eq_true] at hi; exact hi.1
  cases ref with
  | none =>
    cases rev with
    | none =>
      simp only [FlakeRef.to_string, List.append_nil]
      rw [parseCore_to_alias hiColon
        (by rw [hslash1]; exact startsWith_cons_head_ne (alpha_ne hxAlpha (by decide)))]
      rw [parseAlias, splitOnChar_eq_single hiSlash]
      simp [hi]
    | some h =>
      rw [validRevOpt, Bool.and_eq_true, decide_eq_true_eq] at hrev
      have hrh : isRevHash h.hex = true := hash_isRevHash hrev.2 hrev.1
      have hhexColon : ∀ y ∈ h.hex, y ≠ ':' :=
        all_imp_ne (isRevHash_all hrh) (by decide)
      have hhexSlash : ∀ y ∈ h.hex, y ≠ '/' :=
        all_imp_ne (isRevHash_all hrh) (by decide)
      simp only [FlakeRef.to_string, List.append_nil]
      have hcolon : ∀ y ∈ (x :: xs) ++ '/' :: h.hex, y ≠ ':' := by
        intro y hy
        rcases List.mem_append.mp hy with hy | hy
        · exact hiColon y hy
        · rcases List.mem_cons.mp hy with rfl | hy
          · decide
          · exact hhexColon y hy
      rw [parseCore_to_alias hcolon
        (by rw [hslash1, List.cons_append];
            exact startsWith_cons_head_ne (alpha_ne hxAlpha (by decide)))]
      rw [parseAlias, splitOnChar_append hiSlash, splitOnChar_eq_single hhexSlash]
      simp only [hi, hrh, if_true]
      obtain ⟨t, hx⟩ := h
      simp only at hrev
      rw [hrev.1]
  | some rf =>
    rw [validRefOpt] at href
    have hrfColon : ∀ y ∈ rf, y ≠ ':' := all_imp_ne (isRefName_all href) (by decide)
    have hrfSlash : ∀ y ∈ rf, y ≠ '/' := all_imp_ne (isRefName_all href) (by decide)
    cases rev with
    | none =>
      simp only [FlakeRef.to_string, List.append_nil]
      have hcolon : ∀ y ∈ (x :: xs) ++ '/' :: rf, y ≠ ':' := by
        intro y hy
        rcases List.mem_append.mp hy with hy | hy
        · exact hiColon y hy
        · rcases List.mem_cons.mp hy with rfl | hy
          · decide
          · exact hrfColon y hy
      rw [parseCore_to_alias hcolon
        (by rw [hslash1, List.cons_append];
            exact startsWith_cons_head_ne (alpha_ne hxAlpha (by decide)))]
      rw [parseAlias, splitOnChar_append hiSlash, splitOnChar_eq_single hrfSlash]
      simp [hi, isRefName_not_rev href, href]
    | some h =>
      rw [validRevOpt, Bool.and_eq_true, decide_eq_true_eq] at hrev
      have hrh : isRevHash h.hex = true := hash_isRevHash hrev.2 hrev.1
      have hhexColon : ∀ y ∈ h.hex, y ≠ ':' :=
        all_imp_ne (isRevHash_all hrh) (by decide)
      have hhexSlash : ∀ y ∈ h.hex, y ≠ '/' :=
        all_imp_ne (isRevHash_all hrh) (by decide)
      simp only [FlakeRef.to_string]
      have hcolon : ∀ y ∈ (x :: xs) ++ '/' :: rf ++ '/' :: h.hex, y ≠ ':' := by
        intro y hy
        rcases List.mem_append.mp hy with hy | hy
        · rcases List.mem_append.mp hy with hy | hy
          · exact hiColon y hy
          · rcases List.mem_cons.mp hy with rfl | hy
            · decide
            · exact hrfColon y hy
        · rcases List.mem_cons.mp hy with rfl | hy
          · decide
          · exact hhexColon y hy
      rw [parseCore_to_alias hcolon
        (by rw [hslash1, List.cons_append];
            exact startsWith_cons_head_ne (alpha_ne hxAlpha (by decide)))]
      rw [parseAlias]
      rw [show ((x :: xs) ++ '/' :: rf ++ '/' :: h.hex : Str) =
        (x :: xs) ++ '/' :: (rf ++ '/' :: h.hex) from by simp]
      rw [splitOnChar_append hiSlash, splitOnChar_append hrfSlash,
        splitOnChar_eq_single hhexSlash]
      simp only [hi, href, hrh, Bool.and_self, Bool.and_true, if_true]
      obtain ⟨t, hx⟩ := h
      simp only at hrev
      rw [hrev.1]

theorem startsWith_append_self (p s : Str) : startsWith p (p ++ s) = true := by
  induction p with
  | nil => rfl
  | cons x xs ih => simp [startsWith, ih]

/-- A `github:`-prefixed string always reaches grammar rule 1. -/
theorem parseCore_github (rest : Str) :
    parseCore (str "github:" ++ rest) false = parseGitHubRest rest := by
  rw [parseCore, if_pos (startsWith_append_self _ _), List.drop_left]

/-- Round-trip of a GitHub reference. -/
theorem roundTrip_github {o rp : Str} {ref : Option Str} {rev : Option Hash}
    (ho : isGitHubSeg o = true) (hrp : isGitHubSeg rp = true)
    (href : validRefOpt ref = true) (hrev : validRevOpt .sha1 rev = true)
    (hone : (!(ref.isSome && rev.isSome)) = true) :
    parseCore (FlakeRef.to_string ⟨.isGitHub o rp, ref, rev, []⟩) false =
      some ⟨.isGitHub o rp, ref, rev, []⟩ := by
  have hoSlash : ∀ y ∈ o, y ≠ '/' := all_imp_ne (isGitHubSeg_all ho) (by decide)
  have hrpSlash : ∀ y ∈ rp, y ≠ '/' := all_imp_ne (isGitHubSeg_all hrp) (by decide)
  cases rev with
  | some h =>
    cases ref with
    | some rf => simp at hone
    | none =>
      rw [validRevOpt, Bool.and_eq_true, decide_eq_true_eq] at hrev
      have hrh : isRevHash h.hex = true := hash_isRevHash hrev.2 hrev.1
      have hhexSlash : ∀ y ∈ h.hex, y ≠ '/' :=
        all_imp_ne (isRevHash_all hrh) (by decide)
      simp only [FlakeRef.to_string, List.append_assoc, List.cons_append]
      rw [parseCore_github]
      rw [parseGitHubRest, splitOnChar_append hoSlash,
        splitOnChar_append hrpSlash, splitOnChar_eq_single hhexSlash]
      simp only [ho, hrp, hrh, Bool.and_self, if_true]
      obtain ⟨t, hx⟩ := h
      simp only at hrev
      rw [hrev.1]
  | none =>
    cases ref with
    | none =>
      simp only [FlakeRef.to_string, List.append_nil, List.append_assoc,
        List.cons_append]
      rw [parseCore_github]
      rw [parseGitHubRest, splitOnChar_append hoSlash, splitOnChar_eq_single hrpSlash]
      simp [ho, hrp]
    | some rf =>
      rw [validRefOpt] at href
      have hrfSlash : ∀ y ∈ rf, y ≠ '/' := all_imp_ne (isRefName_all href) (by decide)
      simp only [FlakeRef.to_string, List.append_assoc, List.cons_append]
      rw [parseCore_github]
      rw [parseGitHubRest, splitOnChar_append hoSlash,
        splitOnChar_append hrpSlash, splitOnChar_eq_single hrfSlash]
      simp [ho, hrp, isRefName_not_rev href, href]

/-- A Git-scheme URL always reaches the URL rule (with the Git grammar
allowed). -/
theorem parseCore_url_git {p u : Str} (hp : p ∈ gitSchemes)
    (hsw : startsWith p u = true) : parseCore u false = parseUrl true u := by
  obtain ⟨rest, rfl⟩ := startsWith_exists hsw
  simp only [gitSchemes, List.mem_cons, List.not_mem_nil, or_false] at hp
  rcases hp with rfl | rfl | rfl | rfl <;> rfl

/-- A plain `http(s)` URL reaches the URL rule in tarball-only mode. -/
theorem parseCore_url_tarball {p u : Str} (hp : p ∈ tarballSchemes)
    (hsw : startsWith p u = true) : parseCore u false = parseUrl false u := by
  obtain ⟨rest, rfl⟩ := startsWith_exists hsw
  simp only [tarballSchemes, List.mem_cons, List.not_mem_nil, or_false] at hp
  rcases hp with rfl | rfl <;> rfl

theorem attrsToRefRev_refOnly {rf : Str} (h : isRefName rf = true) :
    attrsToRefRev [(str "ref", rf)] none none = some (some rf, none) := by
  simp [attrsToRefRev, h]

theorem attrsToRefRev_revOnly {hx : Str} (h : isRevHash hx = true) :
    attrsToRefRev [(str "rev", hx)] none none =
      some (none, some ⟨.sha1, hx⟩) := by
  have hne : ¬(str "rev" = str "ref") := by decide
  simp [attrsToRefRev, h, hne]

theorem attrsToRefRev_refRev {rf hx : Str} (h1 : isRefName rf = true)
    (h2 : isRevHash hx = true) :
    attrsToRefRev [(str "ref", rf), (str "rev", hx)] none none =
      some (some rf, some ⟨.sha1, hx⟩) := by
  have hne : ¬(str "rev" = str "ref") := by decide
  simp [attrsToRefRev, h1, h2, hne]

theorem roundTrip_giturl {uri : Str} {ref : Option Str} {rev : Option Hash}
    (hall : uri.all isUriChar = true)
    (harch : hasArchiveExt uri = false)
    (hany : (gitSchemes.any fun s => startsWith s uri) = true)
    (href : validRefOpt ref = true) (hrev : validRevOpt .sha1 rev = true) :
    parseCore (FlakeRef.to_string ⟨.isGit uri, ref, rev, []⟩) false =
      some ⟨.isGit uri, ref, rev, []⟩ := by
  have hq : ∀ y ∈ uri, y ≠ '?' := all_imp_ne hall (by decide)
  rw [List.any_eq_true] at hany
  obtain ⟨p, hp, hsw⟩ := hany
  obtain ⟨rest, hrest⟩ := startsWith_exists hsw
  have hto : FlakeRef.to_string ⟨.isGit uri, ref, rev, []⟩ =
      uri ++ refRevQuery ref rev := by
    simp [FlakeRef.to_string, harch]
  rw [hto]
  have hswQ : startsWith p (uri ++ refRevQuery ref rev) = true := by
    rw [hrest, List.append_assoc]; exact startsWith_append_self _ _
  rw [parseCore_url_git hp hswQ]
  cases ref with
  | none =>
    cases rev with
    | none =>
      rw [show (refRevQuery none none : Str) = [] from rfl, List.append_nil]
      rw [parseUrl, breakAt_eq_none hq]
      simp [hall, harch, parseGitUrl, parseAttrs, attrsToRefRev]
    | some h =>
      rw [validRevOpt, Bool.and_eq_true, decide_eq_true_eq] at hrev
      have hrh : isRevHash h.hex = true := hash_isRevHash hrev.2 hrev.1
      have hamp : ∀ y ∈ str "rev=" ++ h.hex, y ≠ '&' := by
        intro y hy
        rcases List.mem_append.mp hy with hy | hy
        · exact (by decide : ∀ y ∈ str "rev=", y ≠ '&') y hy
        · exact all_imp_ne (isRevHash_all hrh) (by decide) y hy
      rw [show (refRevQuery none (some h) : Str) =
        '?' :: (str "rev=" ++ h.hex) from rfl]
      rw [parseUrl, breakAt_append hq]
      simp only [hall, harch, Bool.not_true, Bool.false_eq_true, if_false]
      rw [parseGitUrl]
      rw [parseAttrs, splitOnChar_eq_single hamp]
      simp only [if_true, parseAttrList,
        show parseAttr (str "rev=" ++ h.hex) = some (str "rev", h.hex) from rfl]
      rw [attrsToRefRev_revOnly hrh]
      obtain ⟨t, hx⟩ := h
      simp only at hrev
      rw [hrev.1]
  | some rf =>
    rw [validRefOpt] at href
    have hrfAmp : ∀ y ∈ str "ref=" ++ rf, y ≠ '&' := by
      intro y hy
      rcases List.mem_append.mp hy with hy | hy
      · exact (by decide : ∀ y ∈ str "ref=", y ≠ '&') y hy
      · exact all_imp_ne (isRefName_all href) (by decide) y hy
    cases rev with
    | none =>
      rw [show (refRevQuery (some rf) none : Str) =
        '?' :: (str "ref=" ++ rf) from rfl]
      rw [parseUrl, breakAt_append hq]
      simp only [hall, harch, Bool.not_true, Bool.false_eq_true, if_false]
      rw [parseGitUrl]
      rw [parseAttrs, splitOnChar_eq_single hrfAmp]
      simp only [if_true, parseAttrList,
        show parseAttr (str "ref=" ++ rf) = some (str "ref", rf) from rfl]
      rw [attrsToRefRev_refOnly href]
    | some h =>
      rw [validRevOpt, Bool.and_eq_true, decide_eq_true_eq] at hrev
      have hrh : isRevHash h.hex = true := hash_isRevHash hrev.2 hrev.1
      have hamp : ∀ y ∈ str "rev=" ++ h.hex, y ≠ '&' := by
        intro y hy
        rcases List.mem_append.mp hy with hy | hy
        · exact (by decide : ∀ y ∈ str "rev=", y ≠ '&') y hy
        · exact all_imp_ne (isRevHash_all hrh) (by decide) y hy
      have e1 : (str "?ref=" : Str) = '?' :: str "ref=" := rfl
      have e2 : (str "&rev=" : Str) = '&' :: str "rev=" := rfl
      rw [show (refRevQuery (some rf) (some h) : Str) =
        '?' :: (str "ref=" ++ rf ++ ('&' :: (str "rev=" ++ h.hex))) from by
          show str "?ref=" ++ rf ++ str "&rev=" ++ h.hex = _
          rw [e1, e2]
          simp [List.append_assoc]]
      rw [parseUrl, breakAt_append hq]
      simp only [hall, harch, Bool.not_true, Bool.false_eq_true, if_false]
      rw [parseGitUrl]
      rw [parseAttrs, splitOnChar_append hrfAmp, splitOnChar_eq_single hamp]
      simp only [if_true, parseAttrList,
        show parseAttr (str "ref=" ++ rf) = some (str "ref", rf) from rfl,
        show parseAttr (str "rev=" ++ h.hex) = some (str "rev", h.hex) from rfl]
      rw [attrsToRefRev_refRev href hrh]
      obtain ⟨t, hx⟩ := h
      simp only at hrev
      rw [hrev.1]

theorem attrsToTarballRev_hash {hx : Str} (h64 : isHex64 hx = true) :
    attrsToTarballRev [(str "hash", str "sha256-" ++ hx)] =
      some (some ⟨.sha256, hx⟩) := by
  rw [attrsToTarballRev, if_pos (by rfl)]
  rw [List.drop_left]
  simp [h64]

theorem roundTrip_tarball {uri : Str} {rev : Option Hash}
    (hall : uri.all isUriChar = true)
    (harch : hasArchiveExt uri = true)
    (hany : ((gitSchemes ++ tarballSchemes).any fun s => startsWith s uri) = true)
    (hrev : validRevOpt .sha256 rev = true) :
    parseCore (FlakeRef.to_string ⟨.isGit uri, none, rev, []⟩) false =
      some ⟨.isGit uri, none, rev, []⟩ := by
  have hq : ∀ y ∈ uri, y ≠ '?' := all_imp_ne hall (by decide)
  rw [List.any_eq_true] at hany
  obtain ⟨p, hp, hsw⟩ := hany
  rw [List.mem_append] at hp
  cases rev with
  | none =>
    have hto : FlakeRef.to_string ⟨.isGit uri, none, none, []⟩ = uri := by
      simp [FlakeRef.to_string, harch]
    rw [hto]
    have hred : parseUrl true uri = parseUrl false uri := by
      rw [parseUrl, parseUrl, breakAt_eq_none hq]
      simp [hall, harch]
    have hfin : parseUrl false uri = some ⟨.isGit uri, none, none, []⟩ := by
      rw [parseUrl, breakAt_eq_none hq]
      simp [hall, harch]
      rfl
    rcases hp with hp | hp
    · rw [parseCore_url_git hp hsw, hred, hfin]
    · rw [parseCore_url_tarball hp hsw, hfin]
  | some h =>
    rw [validRevOpt, Bool.and_eq_true, decide_eq_true_eq] at hrev
    have h64 : isHex64 h.hex = true := hash_isHex64 hrev.2 hrev.1
    have hamp : ∀ y ∈ str "hash=sha256-" ++ h.hex, y ≠ '&' := by
      intro y hy
      rcases List.mem_append.mp hy with hy | hy
      · exact (by decide : ∀ y ∈ str "hash=sha256-", y ≠ '&') y hy
      · exact all_imp_ne (isHex64_all h64) (by decide) y hy
    have hto : FlakeRef.to_string ⟨.isGit uri, none, some h, []⟩ =
        uri ++ '?' :: (str "hash=sha256-" ++ h.hex) := by
      simp [FlakeRef.to_string, harch]
      rfl
    have hswQ : startsWith p (uri ++ '?' :: (str "hash=sha256-" ++ h.hex)) = true := by
      obtain ⟨rest, hrest⟩ := startsWith_exists hsw
      rw [hrest, List.append_assoc]
      exact startsWith_append_self _ _
    have hfin : parseUrl false (uri ++ '?' :: (str "hash=sha256-" ++ h.hex)) =
        some ⟨.isGit uri, none, some h, []⟩ := by
      rw [parseUrl, breakAt_append hq]
      simp only [hall, harch, Bool.not_true, Bool.false_eq_true, if_false, if_true]
      rw [parseTarball]
      rw [parseAttrs, splitOnChar_eq_single hamp]
      simp only [parseAttrList,
        show parseAttr (str "hash=sha256-" ++ h.hex) =
          some (str "hash", str "sha256-" ++ h.hex) from rfl]
      rw [attrsToTarballRev_hash h64]
      obtain ⟨t, hx⟩ := h
      simp only at hrev
      rw [hrev.1]
    have hred : parseUrl true (uri ++ '?' :: (str "hash=sha256-" ++ h.hex)) =
        parseUrl false (uri ++ '?' :: (str "hash=sha256-" ++ h.hex)) := by
      rw [parseUrl, parseUrl, breakAt_append hq]
      simp [hall, harch]
    rw [hto]
    rcases hp with hp | hp
    · rw [parseCore_url_git hp hswQ, hred, hfin]
    · rw [parseCore_url_tarball hp hswQ, hfin]

/-- A string starting with `/` always reaches the path rule. -/
theorem parseCore_path (t : Str) : parseCore ('/' :: t) false = parsePath ('/' :: t) := rfl

theorem roundTrip_path {p : Str} {ref : Option Str} {rev : Option Hash}
    (hne : p.isEmpty = false) (hall : p.all isPathChar = true)
    (hslash : startsWith (str "/") p = true)
    (href : validRefOpt ref = true) (hrev : validRevOpt .sha1 rev = true)
    (hsome : (ref.isSome || rev.isSome) = true) :
    parseCore (FlakeRef.to_string ⟨.isPath p, ref, rev, []⟩) false =
      some ⟨.isPath p, ref, rev, []⟩ := by
  have hq : ∀ y ∈ p, y ≠ '?' := all_imp_ne hall (by decide)
  obtain ⟨t, rfl⟩ : ∃ t, p = '/' :: t := by
    obtain ⟨t, ht⟩ := startsWith_exists hslash
    exact ⟨t, ht⟩
  cases ref with
  | none =>
    cases rev with
    | none => simp at hsome
    | some h =>
      rw [validRevOpt, Bool.and_eq_true, decide_eq_true_eq] at hrev
      have hrh : isRevHash h.hex = true := hash_isRevHash hrev.2 hrev.1
      by_cases hsent : h = Hash.emptyOf .sha1
      · have hto : FlakeRef.to_string ⟨.isPath ('/' :: t), none, some h, []⟩ =
            '/' :: t := by
          simp [FlakeRef.to_string, hsent]
        rw [hto, parseCore_path, parsePath, breakAt_eq_none hq]
        simp [hne, hall, hsent]
      · have hto : FlakeRef.to_string ⟨.isPath ('/' :: t), none, some h, []⟩ =
            ('/' :: t) ++ '?' :: (str "rev=" ++ h.hex) := by
          simp [FlakeRef.to_string, hsent]
          rfl
        have hamp : ∀ y ∈ str "rev=" ++ h.hex, y ≠ '&' := by
          intro y hy
          rcases List.mem_append.mp hy with hy | hy
          · exact (by decide : ∀ y ∈ str "rev=", y ≠ '&') y hy
          · exact all_imp_ne (isRevHash_all hrh) (by decide) y hy
        rw [hto, show (('/' :: t) ++ '?' :: (str "rev=" ++ h.hex) : Str) =
          '/' :: (t ++ '?' :: (str "rev=" ++ h.hex)) from rfl]
        rw [parseCore_path, parsePath]
        rw [show breakAt '?' ('/' :: (t ++ '?' :: (str "rev=" ++ h.hex))) =
          ('/' :: t, some (str "rev=" ++ h.hex)) from by
            rw [show ('/' :: (t ++ '?' :: (str "rev=" ++ h.hex)) : Str) =
              ('/' :: t) ++ '?' :: (str "rev=" ++ h.hex) from rfl]
            exact breakAt_append hq]
        simp only [hne, hall, Bool.not_true, Bool.false_eq_true, if_false,
          Bool.or_self, Bool.or_false, Bool.false_or]
        rw [parseAttrs, splitOnChar_eq_single hamp]
        simp only [parseAttrList,
          show parseAttr (str "rev=" ++ h.hex) = some (str "rev", h.hex) from rfl]
        rw [attrsToRefRev_revOnly hrh]
        obtain ⟨ty, hx⟩ := h
        simp only at hrev
        rw [hrev.1]
  | some rf =>
    rw [validRefOpt] at href
    have hrfAmp : ∀ y ∈ str "ref=" ++ rf, y ≠ '&' := by
      intro y hy
      rcases List.mem_append.mp hy with hy | hy
      · exact (by decide : ∀ y ∈ str "ref=", y ≠ '&') y hy
      · exact all_imp_ne (isRefName_all href) (by decide) y hy
    cases rev with
    | none =>
      have hto : FlakeRef.to_string ⟨.isPath ('/' :: t), some rf, none, []⟩ =
          ('/' :: t) ++ '?' :: (str "ref=" ++ rf) := by
        simp [FlakeRef.to_string]
        rfl
      rw [hto, show (('/' :: t) ++ '?' :: (str "ref=" ++ rf) : Str) =
        '/' :: (t ++ '?' :: (str "ref=" ++ rf)) from rfl]
      rw [parseCore_path, parsePath]
      rw [show breakAt '?' ('/' :: (t ++ '?' :: (str "ref=" ++ rf))) =
        ('/' :: t, some (str "ref=" ++ rf)) from by
          rw [show ('/' :: (t ++ '?' :: (str "ref=" ++ rf)) : Str) =
            ('/' :: t) ++ '?' :: (str "ref=" ++ rf) from rfl]
          exact breakAt_append hq]
      simp only [hne, hall, Bool.not_true, Bool.false_eq_true, if_false,
        Bool.or_self, Bool.or_false, Bool.false_or]
      rw [parseAttrs, splitOnChar_eq_single hrfAmp]
      simp only [parseAttrList,
        show parseAttr (str "ref=" ++ rf) = some (str "ref", rf) from rfl]
      rw [attrsToRefRev_refOnly href]
    | some h =>
      rw [validRevOpt, Bool.and_eq_true, decide_eq_true_eq] at hrev
      have hrh : isRevHash h.hex = true := hash_isRevHash hrev.2 hrev.1
      have hamp : ∀ y ∈ str "rev=" ++ h.hex, y ≠ '&' := by
        intro y hy
        rcases List.mem_append.mp hy with hy | hy
        · exact (by decide : ∀ y ∈ str "rev=", y ≠ '&') y hy
        · exact all_imp_ne (isRevHash_all hrh) (by decide) y hy
      have e1 : (str "?ref=" : Str) = '?' :: str "ref=" := rfl
      have e2 : (str "&rev=" : Str) = '&' :: str "rev=" := rfl
      have hto : FlakeRef.to_string ⟨.isPath ('/' :: t), some rf, some h, []⟩ =
          ('/' :: t) ++ '?' :: (str "ref=" ++ rf ++ ('&' :: (str "rev=" ++ h.hex))) := by
        simp only [FlakeRef.to_string, refRevQuery]
        rw [if_neg (by intro hcon; exact Option.some_ne_none rf hcon.1)]
        rw [e1, e2]
        simp [List.append_assoc]
      rw [hto, show (('/' :: t) ++ '?' ::
          (str "ref=" ++ rf ++ ('&' :: (str "rev=" ++ h.hex))) : Str) =
        '/' :: (t ++ '?' :: (str "ref=" ++ rf ++ ('&' :: (str "rev=" ++ h.hex)))) from rfl]
      rw [parseCore_path, parsePath]
      rw [show breakAt '?'
          ('/' :: (t ++ '?' :: (str "ref=" ++ rf ++ ('&' :: (str "rev=" ++ h.hex))))) =
        ('/' :: t, some (str "ref=" ++ rf ++ ('&' :: (str "rev=" ++ h.hex)))) from by
          rw [show ('/' :: (t ++ '?' ::
              (str "ref=" ++ rf ++ ('&' :: (str "rev=" ++ h.hex)))) : Str) =
            ('/' :: t) ++ '?' ::
              (str "ref=" ++ rf ++ ('&' :: (str "rev=" ++ h.hex))) from rfl]
          exact breakAt_append hq]
      simp only [hne, hall, Bool.not_true, Bool.false_eq_true, if_false,
        Bool.or_self, Bool.or_false, Bool.false_or]
      rw [parseAttrs, splitOnChar_append hrfAmp, splitOnChar_eq_single hamp]
      simp only [parseAttrList,
        show parseAttr (str "ref=" ++ rf) = some (str "ref", rf) from rfl,
        show parseAttr (str "rev=" ++ h.hex) = some (str "rev", h.hex) from rfl]
      rw [attrsToRefRev_refRev href hrh]
      obtain ⟨ty, hx⟩ := h
      simp only at hrev
      rw [hrev.1]

theorem parseCore_toString (r : FlakeRef) (h : r.valid = true) :
    parseCore (FlakeRef.to_string r) false = some r := by
  obtain ⟨d, ref, rev, subdir⟩ := r
  simp only [FlakeRef.valid, Bool.and_eq_true] at h
  obtain ⟨hsub, h⟩ := h
  have hsub' : subdir = [] := by
    cases subdir with
    | nil => rfl
    | cons a l => simp [List.isEmpty] at hsub
  subst hsub'
  cases d with
  | isAlias i =>
    simp only [Bool.and_eq_true] at h
    exact roundTrip_alias h.1.1 h.1.2 h.2
  | isGitHub o rp =>
    simp only [Bool.and_eq_true] at h
    exact roundTrip_github h.1.1.1.1 h.1.1.1.2 h.1.1.2 h.1.2 h.2
  | isGit uri =>
    simp only [Bool.and_eq_true] at h
    obtain ⟨⟨hne, hall⟩, hbr⟩ := h
    cases harch : hasArchiveExt uri with
    | true =>
      rw [harch, if_pos rfl, Bool.and_eq_true, Bool.and_eq_true] at hbr
      obtain ⟨⟨hany, hrefnone⟩, hrev⟩ := hbr
      rw [decide_eq_true_eq] at hrefnone
      subst hrefnone
      exact roundTrip_tarball hall harch hany hrev
    | false =>
      rw [harch, if_neg (by simp), Bool.and_eq_true, Bool.and_eq_true] at hbr
      obtain ⟨⟨hany, href⟩, hrev⟩ := hbr
      exact roundTrip_giturl hall harch hany href hrev
  | isPath p =>
    simp only [Bool.and_eq_true] at h
    obtain ⟨⟨⟨⟨⟨hne, hall⟩, hslash⟩, href⟩, hrev⟩, hboth⟩ := h
    have hne' : p.isEmpty = false := by
      cases he : p.isEmpty with
      | false => rfl
      | true => rw [he] at hne; exact absurd hne (by decide)
    have hsome : (ref.isSome || rev.isSome) = true := by
      cases ha : ref.isSome <;> cases hb : rev.isSome <;>
        simp_all
    exact roundTrip_path hne' hall hslash href hrev hsome

/-- C4: round-trip of the textual wire surface — for every valid
constructed `FlakeRef` (any variant, any grammar-expressible combination
of optional ref/rev/subdir), parsing the string produced by `to_string`
yields the same reference back. -/
theorem parse_toString_roundTrip (r : FlakeRef) (h : r.valid = true) :
    FlakeRef.parse (FlakeRef.to_string r) false = .ok r := by
  rw [FlakeRef.parse, parseCore_toString r h]

/-- Witness for the round-trip at a branch-pinned GitHub reference. -/
theorem parse_toString_roundTrip_witness :
    FlakeRef.valid ghWithRef = true ∧
    FlakeRef.parse (FlakeRef.to_string ghWithRef) false = .ok ghWithRef :=
  ⟨by decide, parse_toString_roundTrip ghWithRef (by decide)⟩

/-- C10: the non-throwing entry point agrees with the parsing
constructor — `parseFlakeRef` returns `some r` exactly when the
constructor succeeds with `r`, and `none` exactly when the constructor
fails with `BadFlakeRef`; being `Option`-valued, it never propagates the
failure itself. -/
theorem parseFlakeRef_agrees_with_constructor (uri : Str) (allowRelative : Bool) :
    (∀ r, parseFlakeRef uri allowRelative = some r ↔
      FlakeRef.parse uri allowRelative = .ok r) ∧
    (parseFlakeRef uri allowRelative = none ↔
      FlakeRef.parse uri allowRelative = .error .badFlakeRef) := by
  rw [parseFlakeRef, FlakeRef.parse]
  cases parseCore uri allowRelative <;> simp

/- ### The resolver data model (flake.hh) -/

/-- `typedef std::string FlakeId` (flakeref.hh:103). -/
abbrev FlakeId := Str

/-- `LockFile::FlakeEntry` (flake.hh:18-24): a resolved reference plus
nested per-id entries.  The `std::map`s are embedded as key-sorted
association lists — `std::map` iterates its entries in key order. -/
inductive FlakeEntry where
  | mk (ref : FlakeRef) (flakeEntries : List (FlakeId × FlakeEntry))
      (nonFlakeEntries : List (FlakeId × FlakeRef))

/-- The pinned reference of a lock-file entry. -/
def FlakeEntry.ref : FlakeEntry → FlakeRef
  | .mk r _ _ => r

/-- `LockFile` (flake.hh:16-28). -/
structure LockFile where
  flakeEntries : List (FlakeId × FlakeEntry)
  nonFlakeEntries : List (FlakeId × FlakeRef)

/-- `FlakeRegistry` (flake.hh:11-14): a mapping from reference to
reference, embedded as an association list. -/
structure FlakeRegistry where
  entries : List (FlakeRef × FlakeRef)
deriving DecidableEq, Repr

/-- What the external fetcher returns (spec §6): a local path plus the
metadata it can observe. -/
structure FetchInfo where
  path : Str
  revCount : Option Nat
deriving DecidableEq, Repr

/-- What the external evaluator returns for a fetched tree (spec §6),
together with the flake's declared id and its previously recorded lock
file, both read from the source tree during evaluation. -/
structure EvalInfo where
  flakeId : FlakeId
  description : Str
  requires : List FlakeRef
  lockFile : LockFile
  nonFlakeRequires : List (FlakeId × FlakeRef)

/-- The external collaborators (spec §2, §6): fetch takes a reference;
evaluate takes the fetched path and the subdir.  Both are treated as
atomic success/failure operations. -/
structure Oracles where
  fetch : FlakeRef → Except FlakeError FetchInfo
  eval : Str → Str → Except FlakeError EvalInfo

/-- `Flake` (flake.hh:40-54).  The `Value * vProvides` field is the
opaque evaluator result and stays outside the embedding. -/
structure Flake where
  id : FlakeId
  ref : FlakeRef
  description : Str
  path : Str
  revCount : Option Nat
  requires : List FlakeRef
  lockFile : LockFile
  nonFlakeRequires : List (FlakeId × FlakeRef)

/-- `NonFlake` (flake.hh:56-64); `aliasName` embeds the `alias` field. -/
structure NonFlake where
  aliasName : FlakeId
  ref : FlakeRef
  path : Str
deriving DecidableEq, Repr

/-- `Dependencies` (flake.hh:68-74): a flake plus its resolved flake
dependencies and non-flake dependencies, in order. -/
inductive Dependencies where
  | mk (flake : Flake) (flakeDeps : List Dependencies)
      (nonFlakeDeps : List NonFlake)

/-- The flake at the root of a `Dependencies` tree. -/
def Dependencies.flake : Dependencies → Flake
  | .mk f _ _ => f

/-- The ordered flake dependencies of a `Dependencies` tree. -/
def Dependencies.flakeDeps : Dependencies → List Dependencies
  | .mk _ d _ => d

/-- The ordered non-flake dependencies of a `Dependencies` tree. -/
def Dependencies.nonFlakeDeps : Dependencies → List NonFlake
  | .mk _ _ n => n

/- ### The resolver (spec §4.2-§4.5; getFlake, resolveFlake and
updateLockFile are only declared in flake.hh) -/

/-- Modelled from the spec (§4.2): single-hop registry lookup, no
chasing. -/
def lookupRegistry (reg : FlakeRegistry) (r : FlakeRef) : Option FlakeRef :=
  (reg.entries.find? fun e => FlakeRef.beq e.1 r).map (fun e => e.2)

/-- Modelled from the spec (§4.3 step 1): apply the override `ref`/`rev`
carried on an alias onto the dereferenced target; override replaces,
never merges (the documented assumption of §9). -/
def applyOverride (al target : FlakeRef) : FlakeRef :=
  if al.ref.isSome || al.rev.isSome then
    { target with ref := al.ref, rev := al.rev }
  else target

/-- Modelled from the spec (§4.3 step 1): while the reference is an
alias, look up the bare alias in the registry (failing with
`MissingFlake` when absent) and apply its override onto the result; the
loop is bounded by a hop limit, and exceeding the limit is a fatal
configuration error (a `BadFlakeRef`), not a silent fallback. -/
def dealias (reg : FlakeRegistry) : Nat → FlakeRef → Except FlakeError FlakeRef
  | hops, r =>
    match r.data with
    | .isAlias a =>
      (match hops with
       | 0 => .error .badFlakeRef
       | n + 1 =>
         match lookupRegistry reg ⟨.isAlias a, none, none, r.subdir⟩ with
         | none => .error .missingFlake
         | some target => dealias reg n (applyOverride r target))
    | _ => .ok r

/-- Modelled from the spec (§4.3): `getFlake` (flake.hh:66 is only a
declaration) — dealias, enforce the purity gate on the direct reference
(`isImmutable` required unless impurity is allowed), fetch, evaluate,
and assemble the `Flake`; the exact reference used for fetching is what
is stored. -/
def getFlake (O : Oracles) (reg : FlakeRegistry) (maxHops : Nat)
    (ref : FlakeRef) (impureIsAllowed : Bool) : Except FlakeError Flake :=
  match dealias reg maxHops ref with
  | .error e => .error e
  | .ok direct =>
    if !impureIsAllowed && !direct.isImmutable then .error .badFlakeRef
    else
      match O.fetch direct with
      | .error e => .error e
      | .ok fi =>
        match O.eval fi.path direct.subdir with
        | .error e => .error e
        | .ok ei =>
          .ok ⟨ei.flakeId, direct, ei.description, fi.path, fi.revCount,
               ei.requires, ei.lockFile, ei.nonFlakeRequires⟩

/-- Sequence a fallible operation over a list, propagating the first
failure (spec §7: surface the first failure, no partial results). -/
def exceptMapM (f : α → Except ε β) : List α → Except ε (List β)
  | [] => .ok []
  | a :: as =>
    match f a with
    | .error e => .error e
    | .ok b =>
      match exceptMapM f as with
      | .error e => .error e
      | .ok bs => .ok (b :: bs)

/-- Modelled from the spec (§4.4): `resolveFlake` (flake.hh:76 is only a
declaration) — get the flake, fail fast with the dedicated cycle error
when its id already occurs on the active resolution path (`stack`),
recursively resolve each required reference in order (passing
`impureTopRef = false`, `isTopFlake = false`), and fetch each non-flake
requirement as a leaf.  The `fuel` bound makes the recursion a total
function of the embedding; `fuelExhausted` is reachable only when the
bound is smaller than the tree being resolved. -/
def resolveFlake (O : Oracles) (reg : FlakeRegistry) (maxHops : Nat) :
    Nat → List FlakeId → FlakeRef → Bool → Bool → Except FlakeError Dependencies
  | 0, _, _, _, _ => .error .fuelExhausted
  | fuel + 1, stack, ref, impureTopRef, isTopFlake =>
    match getFlake O reg maxHops ref (impureTopRef && isTopFlake) with
    | .error e => .error e
    | .ok flake =>
      if flake.id ∈ stack then .error (.cycleDetected flake.id)
      else
        match exceptMapM
            (fun r => resolveFlake O reg maxHops fuel (flake.id :: stack) r false false)
            flake.requires with
        | .error e => .error e
        | .ok children =>
          match exceptMapM
              (fun ar =>
                match O.fetch ar.2 with
                | .error e => .error e
                | .ok fi => .ok (NonFlake.mk ar.1 ar.2 fi.path))
              flake.nonFlakeRequires with
          | .error e => .error e
          | .ok nonDeps => .ok (.mk flake children nonDeps)

/-- Ordered-map insertion (`std::map::insert_or_assign`): keep the
association list sorted by key, replacing an existing binding. -/
def insertSorted (k : FlakeId) (v : α) :
    List (FlakeId × α) → List (FlakeId × α)
  | [] => [(k, v)]
  | (k', v') :: m =>
    if strLtB k k' then (k, v) :: (k', v') :: m
    else if k = k' then (k, v) :: m
    else (k', v') :: insertSorted k v m

mutual

/-- Modelled from the spec (§4.5): project a `Dependencies` node into a
lock-file `FlakeEntry`, keeping for every node the exact reference
actually fetched, with children keyed by flake id in the id-sorted map
of flake.hh:21-22. -/
def entryOf : Dependencies → FlakeEntry
  | .mk f ds ns =>
    .mk f.ref (entriesOf ds [])
      (ns.foldl (fun m n => insertSorted n.aliasName n.ref m) [])

/-- Insert the lock-file entries of the given children, in order, into
the accumulated id-sorted map. -/
def entriesOf : List Dependencies → List (FlakeId × FlakeEntry) →
    List (FlakeId × FlakeEntry)
  | [], acc => acc
  | d :: ds, acc => entriesOf ds (insertSorted d.flake.id (entryOf d) acc)

end

/-- Modelled from the spec (§4.5): the lock file produced from a
resolved `Dependencies` tree — one entry per dependency, keyed by flake
id. -/
def lockFileOf : Dependencies → LockFile
  | .mk _ ds ns =>
    ⟨entriesOf ds [],
     ns.foldl (fun m n => insertSorted n.aliasName n.ref m) []⟩

/-- Registry-map insertion keyed by `FlakeRef` equality. -/
def insertRefEntry (k v : FlakeRef) :
    List (FlakeRef × FlakeRef) → List (FlakeRef × FlakeRef)
  | [] => [(k, v)]
  | (k', v') :: m =>
    if FlakeRef.beq k k' then (k, v) :: m
    else (k', v') :: insertRefEntry k v m

mutual

/-- Record, for every node of the tree, the mapping from the node's most
general reference to the exact pinned reference that was fetched
(spec §4.5: "preferring the exact ref/rev actually fetched"). -/
def regOf : Dependencies → List (FlakeRef × FlakeRef) →
    List (FlakeRef × FlakeRef)
  | .mk f ds _, acc => regOfList ds (insertRefEntry f.ref.baseRef f.ref acc)

/-- Fold `regOf` over a list of children. -/
def regOfList : List Dependencies → List (FlakeRef × FlakeRef) →
    List (FlakeRef × FlakeRef)
  | [], acc => acc
  | d :: ds, acc => regOfList ds (regOf d acc)

end

/-- Modelled from the spec (§4.5): `updateLockFile` (flake.hh:78 is only
a declaration) — resolve the flake's own reference at the top level with
purity relaxed and fold the resolved tree into a freshly constructed
pinned registry record.  The C++ signature takes the `Flake` by
non-const reference; the embedding threads that argument through and
returns its final value next to the result, so the frame property is a
statement about the returned pair. -/
def updateLockFile (O : Oracles) (reg : FlakeRegistry) (maxHops fuel : Nat)
    (flake : Flake) : Except FlakeError (FlakeRegistry × Flake) :=
  match resolveFlake O reg maxHops fuel [] flake.ref true true with
  | .error e => .error e
  | .ok deps => .ok (⟨regOf deps []⟩, flake)

/- ### C6: the purity gate of getFlake -/

/-- Dealiasing a direct reference is the identity. -/
theorem dealias_direct {reg : FlakeRegistry} {maxHops : Nat} {r : FlakeRef}
    (h : r.isDirect = true) : dealias reg maxHops r = .ok r := by
  cases hd : r.data with
  | isAlias a => rw [FlakeRef.isDirect, hd] at h; simp at h
  | isGitHub o rp => rw [dealias, hd]
  | isGit u => rw [dealias, hd]
  | isPath p => rw [dealias, hd]

/-- C6 (amended): the purity gate applies to the dereferenced direct
reference — for a direct reference, `getFlake` in pure mode fails with
`BadFlakeRef` exactly when the reference is not immutable, and succeeds
(returning the flake assembled from the fetch and evaluation results)
when it is immutable and the external calls succeed. -/
theorem getFlake_purity_gate (O : Oracles) (reg : FlakeRegistry)
    (maxHops : Nat) (ref : FlakeRef) :
    (ref.isDirect = true → ref.isImmutable = false →
      getFlake O reg maxHops ref false = .error .badFlakeRef) ∧
    (∀ fi ei, ref.isDirect = true → ref.isImmutable = true →
      O.fetch ref = .ok fi → O.eval fi.path ref.subdir = .ok ei →
      getFlake O reg maxHops ref false =
        .ok ⟨ei.flakeId, ref, ei.description, fi.path, fi.revCount,
             ei.requires, ei.lockFile, ei.nonFlakeRequires⟩) := by
  constructor
  · intro hdir himm
    rw [getFlake, dealias_direct hdir]
    simp [himm]
  · intro fi ei hdir himm hfetch heval
    rw [getFlake, dealias_direct hdir]
    simp only [himm, Bool.not_true, Bool.not_false, Bool.and_false,
      Bool.false_eq_true, if_false]
    rw [hfetch]
    simp [heval]

/-- A plain alias reference. -/
def aliasX : FlakeRef := ⟨.isAlias (str "x"), none, none, []⟩

/-- A rev-pinned GitHub reference serving as the registry target. -/
def ghPinnedTarget : FlakeRef :=
  ⟨.isGitHub (str "o") (str "r"), none,
    some ⟨.sha1, str "aaaaaaaaaaaaaaaaaaaaaaaaaaaaaaaaaaaaaaaa"⟩, []⟩

/-- A registry mapping the alias to the pinned target. -/
def regAliasX : FlakeRegistry := ⟨[(aliasX, ghPinnedTarget)]⟩

/-- Oracles that always succeed with fixed outputs. -/
def oraclesOk : Oracles :=
  ⟨fun _ => .ok ⟨str "/nix/store/src", none⟩,
   fun _ _ => .ok ⟨str "f", str "", [], ⟨[], []⟩, []⟩⟩

/-- C6 counterexample to the claim as stated: an alias with no override
is not immutable, yet `getFlake` in pure mode succeeds, because the gate
is checked only after registry dealiasing (§4.3 orders dealias before
the purity check) and the dereferenced target is pinned. -/
theorem getFlake_purity_gate_counterexample :
    FlakeRef.isImmutable aliasX = false ∧
    getFlake oraclesOk regAliasX 1 aliasX false =
      .ok ⟨str "f", ghPinnedTarget, str "", str "/nix/store/src", none,
           [], ⟨[], []⟩, []⟩ :=
  ⟨rfl, rfl⟩

/-- Witness for the purity gate: the failing half at a dirty path
reference, the succeeding half at the pinned GitHub reference. -/
theorem getFlake_purity_gate_witness :
    getFlake oraclesOk regAliasX 1
      ⟨.isPath (str "/p"), none, some (Hash.emptyOf .sha1), []⟩ false =
      .error .badFlakeRef ∧
    getFlake oraclesOk regAliasX 1 ghPinnedTarget false =
      .ok ⟨str "f", ghPinnedTarget, str "", str "/nix/store/src", none,
           [], ⟨[], []⟩, []⟩ :=
  ⟨(getFlake_purity_gate oraclesOk regAliasX 1 _).1 (by decide) (by decide),
   (getFlake_purity_gate oraclesOk regAliasX 1 _).2
     ⟨str "/nix/store/src", none⟩ ⟨str "f", str "", [], ⟨[], []⟩, []⟩
     (by decide) (by decide) rfl rfl⟩

/- ### C7: cycle detection in resolveFlake -/

/-- The pinned reference of flake A in the synthetic cyclic graph. -/
def refCycleA : FlakeRef :=
  ⟨.isGitHub (str "o") (str "a"), none,
    some ⟨.sha1, str "aaaaaaaaaaaaaaaaaaaaaaaaaaaaaaaaaaaaaaaa"⟩, []⟩

/-- The pinned reference of flake B in the synthetic cyclic graph. -/
def refCycleB : FlakeRef :=
  ⟨.isGitHub (str "o") (str "b"), none,
    some ⟨.sha1, str "bbbbbbbbbbbbbbbbbbbbbbbbbbbbbbbbbbbbbbbb"⟩, []⟩

/-- Oracles realizing the dependency graph A → B → A: fetching either
reference yields its own path, and evaluating either tree declares the
other flake as its single requirement. -/
def oraclesCycle : Oracles :=
  ⟨fun r =>
     if r = refCycleA then .ok ⟨str "/src/a", none⟩
     else if r = refCycleB then .ok ⟨str "/src/b", none⟩
     else .error .fetchFailure,
   fun p _ =>
     if p = str "/src/a" then .ok ⟨str "A", str "", [refCycleB], ⟨[], []⟩, []⟩
     else if p = str "/src/b" then .ok ⟨str "B", str "", [refCycleA], ⟨[], []⟩, []⟩
     else .error .evalFailure⟩

/-- C7: on the synthetic graph in which flake A requires flake B and B
requires A, `resolveFlake A` terminates and fails with the dedicated
cycle error naming the recurring id — the id "A" is found on the active
resolution path when the resolver reaches A for the second time, and the
error propagates outward; in particular the result is not the
fuel-exhaustion marker of the bounded embedding. -/
theorem resolveFlake_cycle_detected :
    resolveFlake oraclesCycle ⟨[]⟩ 1 4 [] refCycleA false true =
      .error (.cycleDetected (str "A")) := by rfl

theorem strLtB_trans {a : Str} : ∀ {b c : Str},
    strLtB a b = true → strLtB b c = true → strLtB a c = true := by
  induction a with
  | nil =>
    intro b c h1 h2
    cases b with
    | nil => simp [strLtB] at h1
    | cons y ys =>
      cases c with
      | nil => simp [strLtB] at h2
      | cons z zs => rfl
  | cons x xs ih =>
    intro b c h1 h2
    cases b with
    | nil => simp [strLtB] at h1
    | cons y ys =>
      cases c with
      | nil => simp [strLtB] at h2
      | cons z zs =>
        rw [strLtB] at h1 h2 ⊢
        by_cases hxy : x < y
        · by_cases hyz : y < z
          · simp [lt_trans hxy hyz]
          · by_cases hyz' : y = z
            · subst hyz'; simp [hxy]
            · simp [hyz, hyz'] at h2
        · by_cases hxy' : x = y
          · subst hxy'
            simp only [lt_irrefl, if_false, if_pos rfl] at h1
            by_cases hyz : x < z
            · simp [hyz]
            · by_cases hyz' : x = z
              · subst hyz'
                simp only [lt_irrefl, if_false, if_pos rfl] at h2 ⊢
                exact ih h1 h2
              · simp [hyz, hyz'] at h2
          · simp [hxy, hxy'] at h1

theorem strLtB_conn {a : Str} : ∀ {b : Str},
    strLtB a b = false → a ≠ b → strLtB b a = true := by
  induction a with
  | nil =>
    intro b h hne
    cases b with
    | nil => exact absurd rfl hne
    | cons y ys => simp [strLtB] at h
  | cons x xs ih =>
    intro b h hne
    cases b with
    | nil => rfl
    | cons y ys =>
      rw [strLtB] at h ⊢
      by_cases hxy : x < y
      · simp [hxy] at h
      · by_cases hxy' : x = y
        · subst hxy'
          simp only [lt_irrefl, if_false, if_pos rfl] at h ⊢
          exact ih h (by intro hcon; exact hne (by rw [hcon]))
        · have : y < x := by
            rcases lt_trichotomy x y with hlt | heq | hgt
            · exact absurd hlt hxy
            · exact absurd heq hxy'
            · exact hgt
          simp [this]


theorem mem_insertSorted {k : FlakeId} {v : α} :
    ∀ {m : List (FlakeId × α)} {q : FlakeId × α},
    q ∈ insertSorted k v m → q = (k, v) ∨ q ∈ m := by
  intro m
  induction m with
  | nil => intro q hq; rw [insertSorted] at hq; simpa using hq
  | cons p m ih =>
    intro q hq
    rw [insertSorted] at hq
    by_cases h1 : strLtB k p.1
    · rw [if_pos h1] at hq
      rcases List.mem_cons.mp hq with rfl | hq
      · exact Or.inl rfl
      · exact Or.inr hq
    · rw [if_neg h1] at hq
      by_cases h2 : k = p.1
      · rw [if_pos h2] at hq
        rcases List.mem_cons.mp hq with rfl | hq
        · exact Or.inl rfl
        · exact Or.inr (List.mem_cons_of_mem p hq)
      · rw [if_neg h2] at hq
        rcases List.mem_cons.mp hq with rfl | hq
        · exact Or.inr (List.mem_cons_self p m)
        · rcases ih hq with h | h
          · exact Or.inl h
          · exact Or.inr (List.mem_cons_of_mem p h)

theorem insertSorted_sorted {k : FlakeId} {v : α} :
    ∀ {m : List (FlakeId × α)},
    m.Pairwise (fun p q => strLtB p.1 q.1 = true) →
    (insertSorted k v m).Pairwise (fun p q => strLtB p.1 q.1 = true) := by
  intro m
  induction m with
  | nil => intro _; simp [insertSorted]
  | cons p m ih =>
    intro h
    rw [List.pairwise_cons] at h
    obtain ⟨hp, hm⟩ := h
    rw [insertSorted]
    by_cases h1 : strLtB k p.1
    · rw [if_pos h1, List.pairwise_cons]
      refine ⟨?_, List.Pairwise.cons hp hm⟩
      intro q hq
      rcases List.mem_cons.mp hq with rfl | hq
      · exact h1
      · exact strLtB_trans h1 (hp q hq)
    · rw [if_neg h1]
      by_cases h2 : k = p.1
      · rw [if_pos h2, List.pairwise_cons]
        exact ⟨fun q hq => h2 ▸ hp q hq, hm⟩
      · rw [if_neg h2, List.pairwise_cons]
        refine ⟨?_, ih hm⟩
        intro q hq
        rcases mem_insertSorted hq with rfl | hq
        · cases hlt : strLtB k p.1 with
          | true => exact absurd hlt h1
          | false => exact strLtB_conn hlt h2
        · exact hp q hq

theorem entriesOf_sorted : ∀ (ds : List Dependencies)
    (acc : List (FlakeId × FlakeEntry)),
    acc.Pairwise (fun p q => strLtB p.1 q.1 = true) →
    (entriesOf ds acc).Pairwise (fun p q => strLtB p.1 q.1 = true) := by
  intro ds
  induction ds with
  | nil => intro acc h; rw [entriesOf]; exact h
  | cons d ds ih => intro acc h; rw [entriesOf]; exact ih _ (insertSorted_sorted h)

theorem exceptMapM_get {f : α → Except ε β} : ∀ {as : List α} {bs : List β},
    exceptMapM f as = .ok bs →
    as.length = bs.length ∧ ∀ i (h1 : i < as.length) (h2 : i < bs.length),
      f (as.get ⟨i, h1⟩) = .ok (bs.get ⟨i, h2⟩) := by
  intro as
  induction as with
  | nil =>
    intro bs h
    rw [exceptMapM] at h
    injection h with h'
    subst h'
    exact ⟨rfl, fun i h1 _ => absurd h1 (by simp)⟩
  | cons a as ih =>
    intro bs h
    rw [exceptMapM] at h
    cases hfa : f a with
    | error e => rw [hfa] at h; exact absurd h (by simp)
    | ok b =>
      rw [hfa] at h
      cases hrest : exceptMapM f as with
      | error e => rw [hrest] at h; exact absurd h (by simp)
      | ok bs' =>
        rw [hrest] at h
        injection h with h'
        subst h'
        obtain ⟨hlen, hget⟩ := ih hrest
        refine ⟨by simp [hlen], ?_⟩
        intro i h1 h2
        cases i with
        | zero => simpa using hfa
        | succ j => simpa using hget j (by simpa using h1) (by simpa using h2)

/-- C8 (amended): `resolveFlake` preserves the order of the flake's
declared `requires` list in the resulting children — the i-th child of a
successful resolution is exactly the successful recursive resolution of
the i-th requirement (with `impureTopRef = false`, `isTopFlake = false`,
on the extended path) — but the lock file produced from the
`Dependencies` tree keys its entries by flake id in an id-sorted map
(`std::map`, flake.hh:21,26), so the lock-file entry order is the id
order, not the requires order. -/
theorem resolveFlake_preserves_requires_order (O : Oracles) (reg : FlakeRegistry)
    (maxHops fuel : Nat) (stack : List FlakeId) (ref : FlakeRef)
    (impureTopRef isTopFlake : Bool) (d : Dependencies)
    (h : resolveFlake O reg maxHops (fuel + 1) stack ref impureTopRef isTopFlake =
      .ok d) :
    d.flakeDeps.length = d.flake.requires.length ∧
    (∀ i (h1 : i < d.flake.requires.length) (h2 : i < d.flakeDeps.length),
      resolveFlake O reg maxHops fuel (d.flake.id :: stack)
        (d.flake.requires.get ⟨i, h1⟩) false false =
        .ok (d.flakeDeps.get ⟨i, h2⟩)) ∧
    (lockFileOf d).flakeEntries.Pairwise (fun p q => strLtB p.1 q.1 = true) := by
  rw [resolveFlake] at h
  cases hget : getFlake O reg maxHops ref (impureTopRef && isTopFlake) with
  | error e => rw [hget] at h; exact absurd h (by simp)
  | ok flake =>
    rw [hget] at h
    simp only [] at h
    by_cases hcyc : flake.id ∈ stack
    · rw [if_pos hcyc] at h; exact absurd h (by simp)
    · rw [if_neg hcyc] at h
      cases hch : exceptMapM
          (fun r => resolveFlake O reg maxHops fuel (flake.id :: stack) r false false)
          flake.requires with
      | error e => rw [hch] at h; exact absurd h (by simp)
      | ok children =>
        rw [hch] at h
        simp only [] at h
        cases hnf : exceptMapM
            (fun ar =>
              match O.fetch ar.2 with
              | .error e => .error e
              | .ok fi => .ok (NonFlake.mk ar.1 ar.2 fi.path))
            flake.nonFlakeRequires with
        | error e => rw [hnf] at h; exact absurd h (by simp)
        | ok nonDeps =>
          rw [hnf] at h
          simp only [] at h
          injection h with h'
          subst h'
          obtain ⟨hlen, hg⟩ := exceptMapM_get hch
          refine ⟨hlen.symm, ?_, ?_⟩
          · intro i h1 h2
            exact hg i h1 h2
          · rw [lockFileOf]
            exact entriesOf_sorted children [] List.Pairwise.nil

def refOrderRoot : FlakeRef :=
  ⟨.isGitHub (str "o") (str "root"), none,
    some ⟨.sha1, str "cccccccccccccccccccccccccccccccccccccccc"⟩, []⟩

def oraclesOrder : Oracles :=
  ⟨fun r =>
     if r = refOrderRoot then .ok ⟨str "/ord/root", none⟩
     else if r = refCycleA then .ok ⟨str "/ord/a", none⟩
     else if r = refCycleB then .ok ⟨str "/ord/b", none⟩
     else .error .fetchFailure,
   fun p _ =>
     if p = str "/ord/root" then
       .ok ⟨str "root", str "", [refCycleB, refCycleA], ⟨[], []⟩, []⟩
     else if p = str "/ord/a" then .ok ⟨str "a", str "", [], ⟨[], []⟩, []⟩
     else if p = str "/ord/b" then .ok ⟨str "b", str "", [], ⟨[], []⟩, []⟩
     else .error .evalFailure⟩

def depOrder : Dependencies :=
  .mk ⟨str "root", refOrderRoot, str "", str "/ord/root", none,
        [refCycleB, refCycleA], ⟨[], []⟩, []⟩
    [.mk ⟨str "b", refCycleB, str "", str "/ord/b", none, [], ⟨[], []⟩, []⟩ [] [],
     .mk ⟨str "a", refCycleA, str "", str "/ord/a", none, [], ⟨[], []⟩, []⟩ [] []]
    []

/-- Witness: a concrete two-leaf resolution, its first child, and the
sortedness of its lock-file entries. -/
theorem resolveFlake_order_witness :
    depOrder.flakeDeps.length = depOrder.flake.requires.length ∧
    resolveFlake oraclesOrder ⟨[]⟩ 1 1 (depOrder.flake.id :: [])
      (depOrder.flake.requires.get ⟨0, by decide⟩) false false =
      .ok (depOrder.flakeDeps.get ⟨0, by decide⟩) ∧
    (lockFileOf depOrder).flakeEntries.Pairwise
      (fun p q => strLtB p.1 q.1 = true) :=
  have h := resolveFlake_preserves_requires_order oraclesOrder ⟨[]⟩ 1 1 []
    refOrderRoot false true depOrder (by rfl)
  ⟨h.1, h.2.1 0 (by decide) (by decide), h.2.2⟩

def depOrderRev : Dependencies :=
  .mk ⟨str "root", refOrderRoot, str "", str "/ord/root", none,
        [refCycleA, refCycleB], ⟨[], []⟩, []⟩
    [.mk ⟨str "a", refCycleA, str "", str "/ord/a", none, [], ⟨[], []⟩, []⟩ [] [],
     .mk ⟨str "b", refCycleB, str "", str "/ord/b", none, [], ⟨[], []⟩, []⟩ [] []]
    []

/-- C8 counterexample to "that order affects the ordering of entries in
the lock file": two trees resolved from reversed `requires` lists have
their children in different orders, yet project to identical lock
files — the id-sorted map forgets the requires order. -/
theorem lockFile_not_ordered_by_requires :
    depOrder.flakeDeps.map (fun d => d.flake.id) ≠
      depOrderRev.flakeDeps.map (fun d => d.flake.id) ∧
    lockFileOf depOrder = lockFileOf depOrderRev :=
  ⟨by decide, rfl⟩

/-- C9: `updateLockFile` does not mutate its input — the final value of
the by-reference `Flake` argument (threaded through the embedding as the
second component of the result) is the input itself, unchanged in every
field, and the returned registry is a newly constructed value, a
function of the fresh resolution only. -/
theorem updateLockFile_no_mutation (O : Oracles) (reg : FlakeRegistry)
    (maxHops fuel : Nat) (flake : Flake) (out : FlakeRegistry × Flake)
    (h : updateLockFile O reg maxHops fuel flake = .ok out) :
    out.2 = flake ∧
    ∃ deps, resolveFlake O reg maxHops fuel [] flake.ref true true = .ok deps ∧
      out.1 = ⟨regOf deps []⟩ := by
  rw [updateLockFile] at h
  cases hres : resolveFlake O reg maxHops fuel [] flake.ref true true with
  | error e => rw [hres] at h; exact absurd h (by simp)
  | ok deps =>
    rw [hres] at h
    simp only [] at h
    injection h with h'
    subst h'
    exact ⟨rfl, deps, rfl, rfl⟩

def flakeW : Flake :=
  ⟨str "root", refOrderRoot, str "", str "/ord/root", none,
    [refCycleB, refCycleA], ⟨[], []⟩, []⟩

/-- Witness: a concrete successful lock-file update returning its input
flake unchanged. -/
theorem updateLockFile_no_mutation_witness :
    ((⟨regOf depOrder []⟩ : FlakeRegistry), flakeW).2 = flakeW :=
  (updateLockFile_no_mutation oraclesOrder ⟨[]⟩ 1 3 flakeW
    (⟨regOf depOrder []⟩, flakeW) (by rfl)).1
